import Mathlib

/-!
Verification of the `Redactor` service of the `tokens` repository.

The embedding follows the implementation in `src/unnamed/part_000` (the
variant of `Redactor` that implements the targeted recursive search for a
second-to-last wildcard segment and the container-skipping leaf applier;
this is the variant the repository's own test suite exercises).  Records
are modelled as a mutual inductive of JSON-like trees: mappings are
insertion-ordered association lists (`Fields`), sequences are `ValueList`.
-/

set_option maxHeartbeats 1000000

mutual
/-- A trace record value: the dynamic (`any`-typed) data that `redact`
walks.  Leaves are `null`, booleans, numbers and strings; containers are
sequences (`arr`) and mappings (`obj`). -/
inductive Value : Type where
  | null : Value
  | bool (b : Bool) : Value
  | num (n : Int) : Value
  | str (s : String) : Value
  | arr (items : ValueList) : Value
  | obj (fields : Fields) : Value
  deriving DecidableEq
inductive ValueList : Type where
  | nil : ValueList
  | cons (head : Value) (tail : ValueList) : ValueList
  deriving DecidableEq
inductive Fields : Type where
  | nil : Fields
  | cons (key : String) (value : Value) (tail : Fields) : Fields
  deriving DecidableEq
end

/-- `typeof value === 'object' && value !== null`: mappings and sequences. -/
def isContainer : Value → Bool
  | .arr _ => true
  | .obj _ => true
  | _ => false

/-- Property read: `key in obj` / `obj[key]` on a mapping. -/
def lookupF : Fields → String → Option Value
  | .nil, _ => none
  | .cons k v t, key => if k = key then some v else lookupF t key

/-- Property write `obj[key] = nv` for a key already present on the mapping. -/
def setF : Fields → String → Value → Fields
  | .nil, _, _ => .nil
  | .cons k v t, key, nv => if k = key then .cons k nv t else .cons k v (setF t key nv)

/-- `delete obj[key]`: the key is afterwards entirely absent. -/
def removeF : Fields → String → Fields
  | .nil, _ => .nil
  | .cons k v t, key => if k = key then removeF t key else .cons k v (removeF t key)

/-- `'key' in obj` as a boolean membership test. -/
def memKeyF : Fields → String → Bool
  | .nil, _ => false
  | .cons k _ t, key => k = key || memKeyF t key

/-- Modelled from the spec: `'mask' | 'remove' | 'hash'`, the three rule
actions (the enum itself lives outside `src/`). -/
inductive RedactionAction : Type where
  | mask | remove | hash
  deriving DecidableEq

/-- Modelled from the spec: a `RedactionRule` (its type declaration lives in
`~/tracer/types.ts`, outside `src/`): a non-empty ordered list of path
strings, an action, and an optional replacement used only by `mask`. -/
structure RedactionRule : Type where
  paths : List String
  action : RedactionAction
  replacement : Option String := none
  deriving DecidableEq

/-- A JSON string literal with basic escaping, as produced by
`JSON.stringify` on a string. -/
def jsonEscapeChar (c : Char) : List Char :=
  if c = '"' then ['\\', '"']
  else if c = '\\' then ['\\', '\\']
  else if c = '\n' then ['\\', 'n']
  else if c = '\t' then ['\\', 't']
  else if c = '\r' then ['\\', 'r']
  else [c]

def jsonQuote (s : String) : String :=
  "\"" ++ String.mk (s.data.foldr (fun c acc => jsonEscapeChar c ++ acc) []) ++ "\""

mutual
/-- Models the builtin `JSON.stringify` that `hashValue` applies to
non-string values. -/
def jsonStringify : Value → String
  | .null => "null"
  | .bool b => if b then "true" else "false"
  | .num n => toString n
  | .str s => jsonQuote s
  | .arr xs => "[" ++ jsonStringifyList xs ++ "]"
  | .obj fs => "\x7b" ++ jsonStringifyFields fs ++ "\x7d"
def jsonStringifyList : ValueList → String
  | .nil => ""
  | .cons v .nil => jsonStringify v
  | .cons v t => jsonStringify v ++ "," ++ jsonStringifyList t
def jsonStringifyFields : Fields → String
  | .nil => ""
  | .cons k v .nil => jsonQuote k ++ ":" ++ jsonStringify v
  | .cons k v t => jsonQuote k ++ ":" ++ jsonStringify v ++ "," ++ jsonStringifyFields t
end

/-- JS `x & x` on a number: coercion to a signed 32-bit integer. -/
def toInt32 (n : Int) : Int :=
  let m := n % 4294967296
  if m < 2147483648 then m else m - 4294967296

/-- One iteration of the rolling hash:
`hash = ((hash << 5) - hash) + char; hash = hash & hash`. -/
def hashStep (h : Int) (c : Nat) : Int :=
  toInt32 (toInt32 (h * 32) - h + (c : Int))

/-- The `for` loop of `hashValue` over the string's code units (modelled on
the string's characters). -/
def hashLoop : List Char → Int → Int
  | [], h => h
  | c :: rest, h => hashLoop rest (hashStep h c.toNat)

/-- A lowercase hexadecimal digit character for `n < 16`. -/
def hexDigitChar (n : Nat) : Char :=
  if n < 10 then Char.ofNat (48 + n) else Char.ofNat (87 + n)

/-- Fuelled core of `n.toString(16)`. -/
def toHexAux : Nat → Nat → List Char
  | _, 0 => []
  | n, fuel + 1 =>
    if n < 16 then [hexDigitChar n]
    else toHexAux (n / 16) fuel ++ [hexDigitChar (n % 16)]

/-- Models the builtin `n.toString(16)` (lowercase digits). -/
def natToHex (n : Nat) : String := String.mk (toHexAux n (n + 1))

/-- Models the builtin `s.padStart(len, c)`. -/
def padStart (s : String) (len : Nat) (c : Char) : String :=
  String.mk (List.replicate (len - s.length) c ++ s.data)

namespace Redactor

/-- `Redactor.hashValue`: rolling hash of the value's string form,
rendered as `[HASH:` + 8 hex digits + `]`. -/
def hashValue (value : Value) : String :=
  let s := match value with
    | .str s => s
    | v => jsonStringify v
  "[HASH:" ++ padStart (natToHex (hashLoop s.data 0).natAbs) 8 '0' ++ "]"

/-- `Redactor.redactValue` (the leaf applier, `part_000` variant): no-op when
the key is absent or its value is itself a container; otherwise mask, remove
or hash the value in the mapping. -/
def redactValue (fs : Fields) (key : String) (rule : RedactionRule) : Fields :=
  match lookupF fs key with
  | none => fs
  | some v =>
    if isContainer v then fs
    else
      match rule.action with
      | .mask => setF fs key (.str (rule.replacement.getD "[REDACTED]"))
      | .remove => removeF fs key
      | .hash => setF fs key (.str (hashValue v))

mutual
/-- `Redactor.recursiveSearch` (`part_000`): search the whole subtree and
apply the leaf applier to every occurrence of `targetKey`. -/
def recursiveSearch : Value → String → RedactionRule → Value
  | .null, _, _ => .null
  | .bool b, _, _ => .bool b
  | .num n, _, _ => .num n
  | .str s, _, _ => .str s
  | .arr xs, k, rule => .arr (searchList xs k rule)
  | .obj fs, k, rule => .obj (searchFields fs k rule)
def searchList : ValueList → String → RedactionRule → ValueList
  | .nil, _, _ => .nil
  | .cons v t, k, rule => .cons (recursiveSearch v k rule) (searchList t k rule)
def searchFields : Fields → String → RedactionRule → Fields
  | .nil, _, _ => .nil
  | .cons k' v t, k, rule =>
    if k' = k then
      if isContainer v then .cons k' (recursiveSearch v k rule) (searchFields t k rule)
      else
        match rule.action with
        | .mask => .cons k' (.str (rule.replacement.getD "[REDACTED]")) (searchFields t k rule)
        | .remove => searchFields t k rule
        | .hash => .cons k' (.str (hashValue v)) (searchFields t k rule)
    else .cons k' (recursiveSearch v k rule) (searchFields t k rule)
end

mutual
/-- `Redactor.traverseAndRedact` (`part_000`): walk the compiled segments.
Arrays are transparent (recursed element-by-element at the same index); a
wildcard in second-to-last position triggers `recursiveSearch`; otherwise a
wildcard iterates one level; a last literal segment invokes the leaf
applier. -/
def traverseAndRedact (v : Value) (parts : List String) (i : Nat)
    (rule : RedactionRule) : Value :=
  if i ≥ parts.length then v
    else
      match v with
      | .null => .null
      | .bool b => .bool b
      | .num n => .num n
      | .str s => .str s
      | .arr xs => .arr (traverseList xs parts i rule)
      | .obj fs =>
        let part := parts.getD i ""
        if part = "*" then
          if i + 1 = parts.length - 1 then
            recursiveSearch (.obj fs) (parts.getD (i + 1) "") rule
          else .obj (traverseFields fs parts (i + 1) rule)
        else if i = parts.length - 1 then .obj (redactValue fs part rule)
        else if (lookupF fs part).isSome then
          .obj (traverseAtKey fs part parts (i + 1) rule)
        else .obj fs
def traverseList : ValueList → List String → Nat → RedactionRule → ValueList
  | .nil, _, _, _ => .nil
  | .cons v t, parts, i, rule =>
    .cons (traverseAndRedact v parts i rule) (traverseList t parts i rule)
def traverseFields : Fields → List String → Nat → RedactionRule → Fields
  | .nil, _, _, _ => .nil
  | .cons k v t, parts, i, rule =>
    .cons k (traverseAndRedact v parts i rule) (traverseFields t parts i rule)
def traverseAtKey : Fields → String → List String → Nat → RedactionRule → Fields
  | .nil, _, _, _, _ => .nil
  | .cons k v t, key, parts, i, rule =>
    if k = key then .cons k (traverseAndRedact v parts i rule) t
    else .cons k v (traverseAtKey t key parts i rule)
end

/-- JS `path.split('.')` on the path's characters (keeps empty tokens). -/
def splitTokens : List Char → List (List Char)
  | [] => [[]]
  | c :: rest =>
    if c = '.' then [] :: splitTokens rest
    else
      match splitTokens rest with
      | [] => [[c]]
      | t :: ts => (c :: t) :: ts

/-- Whether the character list starts with the two characters `[]`. -/
def startsWithBr : List Char → Bool
  | c :: d :: _ => c == '[' && d == ']'
  | _ => false

/-- `part.includes('[]')`. -/
def hasBrackets : List Char → Bool
  | [] => false
  | c :: rest => startsWithBr (c :: rest) || hasBrackets rest

/-- `part.replace('[]', '')`: drop the first occurrence of `[]`. -/
def stripBrackets : List Char → List Char
  | [] => []
  | c :: rest => if startsWithBr (c :: rest) then rest.tail else c :: stripBrackets rest

/-- The segments contributed by one path token: `*` stays a wildcard
sentinel; a token containing `[]` contributes its base name when non-empty
(and nothing else); any other token is a literal segment. -/
def tokenSegments (t : String) : List String :=
  if t = "*" then ["*"]
  else if hasBrackets t.data then
    let baseName := String.mk (stripBrackets t.data)
    if baseName ≠ "" then [baseName] else []
  else [t]

/-- `Redactor.parsePath` (`part_000` / first `redactor.service.ts` variant):
split on `.` and accumulate each token's segments. -/
def parsePath (path : String) : List String :=
  (splitTokens path.data).foldl (fun segs tok => segs ++ tokenSegments (String.mk tok)) []

/-- `Redactor.applyRedaction`. -/
def applyRedaction (obj : Value) (path : String) (rule : RedactionRule) : Value :=
  traverseAndRedact obj (parsePath path) 0 rule

mutual
/-- Models the builtin `structuredClone`: a structural deep copy of the
record. -/
def structuredClone : Value → Value
  | .null => .null
  | .bool b => .bool b
  | .num n => .num n
  | .str s => .str s
  | .arr xs => .arr (cloneList xs)
  | .obj fs => .obj (cloneFields fs)
def cloneList : ValueList → ValueList
  | .nil => .nil
  | .cons v t => .cons (structuredClone v) (cloneList t)
def cloneFields : Fields → Fields
  | .nil => .nil
  | .cons k v t => .cons k (structuredClone v) (cloneFields t)
end

/-- `Redactor.redact`: deep-clone the record, then apply every path of every
rule, in order, to the clone, and return the clone. -/
def redact (rules : List RedactionRule) (trace : Value) : Value :=
  rules.foldl
    (fun acc rule => rule.paths.foldl (fun a p => applyRedaction a p rule) acc)
    (structuredClone trace)

end Redactor

/-! Observation helpers and specification-side predicates used to state the
properties. -/

/-- Read a key of a mapping value (`none` on non-mappings). -/
def getKey : Value → String → Option Value
  | .obj fs, k => lookupF fs k
  | _, _ => none

/-- Follow a chain of mapping keys. -/
def getPath : Value → List String → Option Value
  | v, [] => some v
  | v, k :: ks =>
    match getKey v k with
    | some u => getPath u ks
    | none => none

/-- Map a function over every value of a mapping, keeping keys and order. -/
def mapValues (f : Value → Value) : Fields → Fields
  | .nil => .nil
  | .cons k v t => .cons k (f v) (mapValues f t)

/-- Map a function over every element of a sequence. -/
def mapList (f : Value → Value) : ValueList → ValueList
  | .nil => .nil
  | .cons v t => .cons (f v) (mapList f t)

/-- Concatenation of mappings (used to state the spec-side search). -/
def appendF : Fields → Fields → Fields
  | .nil, gs => gs
  | .cons k v t, gs => .cons k v (appendF t gs)

/-- Lowercase hexadecimal digit characters `0`-`9`, `a`-`f`. -/
def isLowerHexDigit (c : Char) : Bool :=
  (48 ≤ c.toNat && c.toNat ≤ 57) || (97 ≤ c.toNat && c.toNat ≤ 102)

mutual
/-- Modelled from the spec (§4.2 targeted recursive search): descend into
every value of every key of the current mapping, at every depth — through
nested mappings and sequences — and whenever a key equal to the final
literal segment is found, apply the leaf applier to that key on its
containing mapping. -/
def specTargetedSearch : Value → String → RedactionRule → Value
  | .arr xs, k, rule => .arr (specSearchList xs k rule)
  | .obj fs, k, rule => .obj (specSearchFields fs k rule)
  | v, _, _ => v
def specSearchList : ValueList → String → RedactionRule → ValueList
  | .nil, _, _ => .nil
  | .cons v t, k, rule => .cons (specTargetedSearch v k rule) (specSearchList t k rule)
def specSearchFields : Fields → String → RedactionRule → Fields
  | .nil, _, _ => .nil
  | .cons k' v t, k, rule =>
    if k' = k then
      appendF (Redactor.redactValue (.cons k' (specTargetedSearch v k rule) .nil) k rule)
        (specSearchFields t k rule)
    else .cons k' (specTargetedSearch v k rule) (specSearchFields t k rule)
end

mutual
/-- No mapping anywhere in the value has an empty-string key. -/
def noEmptyKeyV : Value → Bool
  | .arr xs => noEmptyKeyL xs
  | .obj fs => noEmptyKeyF fs
  | _ => true
def noEmptyKeyL : ValueList → Bool
  | .nil => true
  | .cons v t => noEmptyKeyV v && noEmptyKeyL t
def noEmptyKeyF : Fields → Bool
  | .nil => true
  | .cons k v t => !decide (k = "") && noEmptyKeyV v && noEmptyKeyF t
end

mutual
/-- Well-formed records: every mapping has pairwise-distinct keys (as every
JavaScript object does). -/
def wfV : Value → Bool
  | .arr xs => wfL xs
  | .obj fs => wfF fs
  | _ => true
def wfL : ValueList → Bool
  | .nil => true
  | .cons v t => wfV v && wfL t
def wfF : Fields → Bool
  | .nil => true
  | .cons k v t => !memKeyF t k && wfV v && wfF t
end

/-- The leaf applier would act on `key`: it is present with a non-container
value. -/
def hasLeafKey (fs : Fields) (key : String) : Bool :=
  match lookupF fs key with
  | some v => !isContainer v
  | none => false

mutual
/-- No occurrence of `k` with a leaf value anywhere in the subtree (so the
recursive search finds nothing to redact). -/
def noSearchMatchV : Value → String → Bool
  | .arr xs, k => noSearchMatchL xs k
  | .obj fs, k => noSearchMatchF fs k
  | _, _ => true
def noSearchMatchL : ValueList → String → Bool
  | .nil, _ => true
  | .cons v t, k => noSearchMatchV v k && noSearchMatchL t k
def noSearchMatchF : Fields → String → Bool
  | .nil, _ => true
  | .cons k' v t, k =>
    (if k' = k then isContainer v else true) && noSearchMatchV v k && noSearchMatchF t k
end

mutual
/-- The walk of `parts` from index `i` reaches no position at which the leaf
applier would act: the traversal is a no-op there. -/
def noMatchV (v : Value) (parts : List String) (i : Nat) : Bool :=
  if i ≥ parts.length then true
    else
      match v with
      | .arr xs => noMatchL xs parts i
      | .obj fs =>
        let part := parts.getD i ""
        if part = "*" then
          if i + 1 = parts.length - 1 then noSearchMatchF fs (parts.getD (i + 1) "")
          else noMatchFAll fs parts (i + 1)
        else if i = parts.length - 1 then !hasLeafKey fs part
        else noMatchAtKey fs part parts (i + 1)
      | _ => true
def noMatchL : ValueList → List String → Nat → Bool
  | .nil, _, _ => true
  | .cons v t, parts, i => noMatchV v parts i && noMatchL t parts i
def noMatchFAll : Fields → List String → Nat → Bool
  | .nil, _, _ => true
  | .cons _ v t, parts, i => noMatchV v parts i && noMatchFAll t parts i
def noMatchAtKey : Fields → String → List String → Nat → Bool
  | .nil, _, _, _ => true
  | .cons k v t, key, parts, i =>
    if k = key then noMatchV v parts i else noMatchAtKey t key parts i
end

mutual
/-- `delV v w`: `w` is obtained from `v` by deleting entries of mappings, at
any depth (what `remove` rules do). -/
def delV : Value → Value → Prop
  | .null, w => w = .null
  | .bool b, w => w = .bool b
  | .num n, w => w = .num n
  | .str s, w => w = .str s
  | .arr xs, w => match w with | .arr ys => delL xs ys | _ => False
  | .obj fs, w => match w with | .obj gs => delF fs gs | _ => False
def delL : ValueList → ValueList → Prop
  | .nil, ys => ys = .nil
  | .cons v t, ys => match ys with | .cons w t' => delV v w ∧ delL t t' | _ => False
def delF : Fields → Fields → Prop
  | .nil, gs => gs = .nil
  | .cons k v t, gs =>
    delF t gs ∨ match gs with
      | .cons k' w t' => k' = k ∧ delV v w ∧ delF t t'
      | .nil => False
end

/-- The flattened list of (path, rule) applications `redact` performs, in
order. -/
def opList (rules : List RedactionRule) : List (String × RedactionRule) :=
  (rules.map (fun r => r.paths.map (fun p => (p, r)))).flatten

/-- Apply a list of (path, rule) operations in order. -/
def applyOps (ops : List (String × RedactionRule)) (v : Value) : Value :=
  ops.foldl (fun a pr => Redactor.applyRedaction a pr.1 pr.2) v

open Redactor

/-! Basic lemmas. -/

mutual
theorem structuredClone_id : ∀ v : Value, structuredClone v = v
  | .null => rfl
  | .bool _ => rfl
  | .num _ => rfl
  | .str _ => rfl
  | .arr xs => by rw [structuredClone, cloneList_id xs]
  | .obj fs => by rw [structuredClone, cloneFields_id fs]
theorem cloneList_id : ∀ xs : ValueList, cloneList xs = xs
  | .nil => rfl
  | .cons v t => by rw [cloneList, structuredClone_id v, cloneList_id t]
theorem cloneFields_id : ∀ fs : Fields, cloneFields fs = fs
  | .nil => rfl
  | .cons k v t => by rw [cloneFields, structuredClone_id v, cloneFields_id t]
end

/-- C1: for every record R and every rule list, `redact` never changes the
original input R — it operates only on a structurally independent deep copy
(`structuredClone`), which is deeply equal to R at every field and depth,
and returns that processed copy. -/
theorem redact_operates_on_deep_copy_only (rules : List RedactionRule) (r : Value) :
    redact rules r =
      rules.foldl
        (fun acc rule => rule.paths.foldl (fun a p => applyRedaction a p rule) acc)
        (structuredClone r)
    ∧ structuredClone r = r :=
  ⟨rfl, structuredClone_id r⟩

/-! Case lemmas for `traverseAndRedact` (one per branch of the walker). -/

theorem trav_stop (v : Value) (parts : List String) (i : Nat) (rule : RedactionRule)
    (h : parts.length ≤ i) : traverseAndRedact v parts i rule = v := by
  rw [traverseAndRedact.eq_def, if_pos (by omega : i ≥ parts.length)]

theorem trav_null (parts : List String) (i : Nat) (rule : RedactionRule) :
    traverseAndRedact .null parts i rule = .null := by
  rw [traverseAndRedact.eq_def]; split <;> rfl

theorem trav_bool (b : Bool) (parts : List String) (i : Nat) (rule : RedactionRule) :
    traverseAndRedact (.bool b) parts i rule = .bool b := by
  rw [traverseAndRedact.eq_def]; split <;> rfl

theorem trav_num (n : Int) (parts : List String) (i : Nat) (rule : RedactionRule) :
    traverseAndRedact (.num n) parts i rule = .num n := by
  rw [traverseAndRedact.eq_def]; split <;> rfl

theorem trav_str (s : String) (parts : List String) (i : Nat) (rule : RedactionRule) :
    traverseAndRedact (.str s) parts i rule = .str s := by
  rw [traverseAndRedact.eq_def]; split <;> rfl

theorem trav_arr (xs : ValueList) (parts : List String) (i : Nat) (rule : RedactionRule)
    (h : i < parts.length) :
    traverseAndRedact (.arr xs) parts i rule = .arr (traverseList xs parts i rule) := by
  rw [traverseAndRedact.eq_def, if_neg (by omega : ¬ i ≥ parts.length)]

theorem trav_obj_wild_search (fs : Fields) (parts : List String) (i : Nat)
    (rule : RedactionRule) (h : i < parts.length) (hp : parts.getD i "" = "*")
    (h2 : i + 1 = parts.length - 1) :
    traverseAndRedact (.obj fs) parts i rule =
      recursiveSearch (.obj fs) (parts.getD (i + 1) "") rule := by
  rw [traverseAndRedact.eq_def, if_neg (by omega : ¬ i ≥ parts.length)]
  simp only [hp, if_pos h2, if_true]

theorem trav_obj_wild_iter (fs : Fields) (parts : List String) (i : Nat)
    (rule : RedactionRule) (h : i < parts.length) (hp : parts.getD i "" = "*")
    (h2 : i + 1 ≠ parts.length - 1) :
    traverseAndRedact (.obj fs) parts i rule =
      .obj (traverseFields fs parts (i + 1) rule) := by
  rw [traverseAndRedact.eq_def, if_neg (by omega : ¬ i ≥ parts.length)]
  simp only [hp, if_neg h2, if_true]

theorem trav_obj_last (fs : Fields) (parts : List String) (i : Nat)
    (rule : RedactionRule) (h : i < parts.length) (hp : parts.getD i "" ≠ "*")
    (hl : i = parts.length - 1) :
    traverseAndRedact (.obj fs) parts i rule =
      .obj (redactValue fs (parts.getD i "") rule) := by
  rw [traverseAndRedact.eq_def, if_neg (by omega : ¬ i ≥ parts.length)]
  simp only [if_neg hp, if_pos hl]

theorem trav_obj_step (fs : Fields) (parts : List String) (i : Nat)
    (rule : RedactionRule) (h : i < parts.length) (hp : parts.getD i "" ≠ "*")
    (hl : i ≠ parts.length - 1) (hk : (lookupF fs (parts.getD i "")).isSome) :
    traverseAndRedact (.obj fs) parts i rule =
      .obj (traverseAtKey fs (parts.getD i "") parts (i + 1) rule) := by
  rw [traverseAndRedact.eq_def, if_neg (by omega : ¬ i ≥ parts.length)]
  simp only [if_neg hp, if_neg hl, if_pos hk]

theorem trav_obj_miss (fs : Fields) (parts : List String) (i : Nat)
    (rule : RedactionRule) (h : i < parts.length) (hp : parts.getD i "" ≠ "*")
    (hl : i ≠ parts.length - 1) (hk : lookupF fs (parts.getD i "") = none) :
    traverseAndRedact (.obj fs) parts i rule = .obj fs := by
  rw [traverseAndRedact.eq_def, if_neg (by omega : ¬ i ≥ parts.length)]
  simp only [if_neg hp, if_neg hl, hk, Option.isSome_none]
  rfl

/-! Bounds and digit lemmas for the hash. -/

theorem toInt32_lb (n : Int) : -2147483648 ≤ toInt32 n := by
  simp only [toInt32]
  have h0 : 0 ≤ n % 4294967296 := Int.emod_nonneg n (by norm_num)
  have h1 : n % 4294967296 < 4294967296 := Int.emod_lt_of_pos n (by norm_num)
  split <;> omega

theorem toInt32_ub (n : Int) : toInt32 n < 2147483648 := by
  simp only [toInt32]
  have h0 : 0 ≤ n % 4294967296 := Int.emod_nonneg n (by norm_num)
  have h1 : n % 4294967296 < 4294967296 := Int.emod_lt_of_pos n (by norm_num)
  split <;> omega

theorem hashLoop_bound :
    ∀ (l : List Char) (h : Int), -2147483648 ≤ h ∧ h < 2147483648 →
      -2147483648 ≤ hashLoop l h ∧ hashLoop l h < 2147483648
  | [], _, hb => hb
  | c :: rest, h, _ =>
    hashLoop_bound rest (hashStep h c.toNat) ⟨toInt32_lb _, toInt32_ub _⟩

theorem hexDigitChar_lower (n : Nat) (h : n < 16) : isLowerHexDigit (hexDigitChar n) = true := by
  interval_cases n <;> decide

theorem toHexAux_length (fuel : Nat) :
    ∀ n k, n < 16 ^ (k + 1) → (toHexAux n fuel).length ≤ k + 1 := by
  induction fuel with
  | zero => intro n k _; simp [toHexAux]
  | succ f ih =>
    intro n k hn
    by_cases h : n < 16
    · simp [toHexAux, h]
    · cases k with
      | zero => norm_num at hn; omega
      | succ k' =>
        rw [toHexAux, if_neg h]
        rw [List.length_append]
        have hdiv : n / 16 < 16 ^ (k' + 1) := by
          rw [Nat.div_lt_iff_lt_mul (by norm_num)]
          calc n < 16 ^ (k' + 2) := hn
            _ = 16 ^ (k' + 1) * 16 := by ring
        have := ih (n / 16) k' hdiv
        simp only [List.length_cons, List.length_nil]
        omega

theorem toHexAux_chars (fuel : Nat) :
    ∀ n c, c ∈ toHexAux n fuel → isLowerHexDigit c = true := by
  induction fuel with
  | zero => intro n c hc; simp [toHexAux] at hc
  | succ f ih =>
    intro n c hc
    rw [toHexAux] at hc
    by_cases h : n < 16
    · rw [if_pos h] at hc
      simp only [List.mem_singleton] at hc
      subst hc
      exact hexDigitChar_lower n h
    · rw [if_neg h] at hc
      rw [List.mem_append] at hc
      rcases hc with hc | hc
      · exact ih _ _ hc
      · simp only [List.mem_singleton] at hc
        subst hc
        exact hexDigitChar_lower _ (Nat.mod_lt _ (by norm_num))

theorem padStart_len8 (s : String) (c : Char) (h : s.length ≤ 8) :
    (padStart s 8 c).length = 8 := by
  show (List.replicate (8 - s.length) c ++ s.data).length = 8
  rw [List.length_append, List.length_replicate]
  have hd : s.data.length = s.length := rfl
  omega

theorem padStart_data (s : String) (len : Nat) (c : Char) :
    (padStart s len c).data = List.replicate (len - s.length) c ++ s.data := rfl

theorem hash_padded_format (s : String) :
    (padStart (natToHex (hashLoop s.data 0).natAbs) 8 '0').length = 8 ∧
      ∀ c ∈ (padStart (natToHex (hashLoop s.data 0).natAbs) 8 '0').data,
        isLowerHexDigit c = true := by
  have hb := hashLoop_bound s.data 0 ⟨by norm_num, by norm_num⟩
  have hn : (hashLoop s.data 0).natAbs < 16 ^ (7 + 1) := by
    have h1 := hb.1
    have h2 := hb.2
    have : (16:Nat) ^ (7 + 1) = 4294967296 := by norm_num
    rw [this]
    omega
  have hlen : (natToHex (hashLoop s.data 0).natAbs).length ≤ 8 := by
    exact toHexAux_length ((hashLoop s.data 0).natAbs + 1) (hashLoop s.data 0).natAbs 7 hn
  constructor
  · exact padStart_len8 _ _ hlen
  · intro c hc
    rw [padStart_data] at hc
    rw [List.mem_append] at hc
    rcases hc with hc | hc
    · rw [List.eq_of_mem_replicate hc]
      decide
    · exact toHexAux_chars _ _ _ hc

/-- C8: for every input value, `hashValue` produces `[HASH:` followed by
exactly 8 lowercase hexadecimal digits and `]`, and equal input values
always yield equal hash strings. -/
theorem hashValue_format_deterministic (v : Value) :
    ∃ hex : String,
      hashValue v = "[HASH:" ++ hex ++ "]" ∧
      hex.length = 8 ∧
      (∀ c ∈ hex.data, isLowerHexDigit c = true) ∧
      (∀ w : Value, w = v → hashValue w = hashValue v) := by
  cases v <;>
    exact ⟨_, rfl, (hash_padded_format _).1, (hash_padded_format _).2, fun w hw => by rw [hw]⟩

/-- Witness for C8's inner hypothesis (the determinism conjunct) at a
concrete value. -/
theorem hashValue_format_deterministic_witness :
    ∃ hex : String,
      hashValue (.str "user@example.com") = "[HASH:" ++ hex ++ "]" ∧
      hex.length = 8 ∧
      (∀ c ∈ hex.data, isLowerHexDigit c = true) ∧
      hashValue (.str "user@example.com") = hashValue (.str "user@example.com") := by
  obtain ⟨hex, h1, h2, h3, h4⟩ := hashValue_format_deterministic (.str "user@example.com")
  exact ⟨hex, h1, h2, h3, h4 _ rfl⟩

/-! Map characterisations of the walker's helper loops. -/

theorem traverseList_map : ∀ (xs : ValueList) (parts : List String) (i : Nat)
    (rule : RedactionRule),
    traverseList xs parts i rule =
      mapList (fun x => traverseAndRedact x parts i rule) xs
  | .nil, _, _, _ => rfl
  | .cons v t, parts, i, rule => by
    rw [traverseList, mapList, traverseList_map t parts i rule]

theorem traverseFields_map : ∀ (fs : Fields) (parts : List String) (i : Nat)
    (rule : RedactionRule),
    traverseFields fs parts i rule =
      mapValues (fun x => traverseAndRedact x parts i rule) fs
  | .nil, _, _, _ => rfl
  | .cons k v t, parts, i, rule => by
    rw [traverseFields, mapValues, traverseFields_map t parts i rule]

theorem mapList_trav_stop : ∀ (xs : ValueList) (parts : List String) (i : Nat)
    (rule : RedactionRule), parts.length ≤ i →
    mapList (fun x => traverseAndRedact x parts i rule) xs = xs
  | .nil, _, _, _, _ => rfl
  | .cons v t, parts, i, rule, h => by
    rw [mapList, trav_stop _ _ _ _ h, mapList_trav_stop t parts i rule h]

/-! Path-compiler lemmas for the `[]` suffix. -/

theorem hasBrackets_append_br (l : List Char) :
    hasBrackets (l ++ ['[', ']']) = true := by
  induction l with
  | nil => decide
  | cons c rest ih =>
    rw [List.cons_append, hasBrackets, ih, Bool.or_true]

theorem startsWithBr_append_br (c : Char) (rest : List Char)
    (h : startsWithBr (c :: rest) = false) :
    startsWithBr (c :: (rest ++ ['[', ']'])) = false := by
  cases rest with
  | nil => simp [startsWithBr]
  | cons d r => simpa [startsWithBr] using h

theorem stripBrackets_append_br (l : List Char) (h : hasBrackets l = false) :
    stripBrackets (l ++ ['[', ']']) = l := by
  induction l with
  | nil => decide
  | cons c rest ih =>
    rw [hasBrackets, Bool.or_eq_false_iff] at h
    rw [List.cons_append, stripBrackets, if_neg (by rw [startsWithBr_append_br c rest h.1]; simp),
      ih h.2]

theorem string_ne_of_length_ne (s t : String) (h : s.length ≠ t.length) : s ≠ t := by
  intro he; exact h (by rw [he])


theorem tokenSegments_array_suffix (k : String) (h1 : hasBrackets k.data = false)
    (h2 : k ≠ "") (h3 : k ≠ "*") :
    tokenSegments (k ++ "[]") = tokenSegments k := by
  have hdata : (k ++ "[]").data = k.data ++ ['[', ']'] := by
    rw [String.data_append]
  have hne : (k ++ "[]") ≠ "*" := by
    apply string_ne_of_length_ne
    rw [String.length_append]
    have : ("[]" : String).length = 2 := by decide
    have : ("*" : String).length = 1 := by decide
    omega
  have hkmk : String.mk k.data = k := rfl
  rw [tokenSegments, tokenSegments, if_neg hne, if_neg h3, hdata, hasBrackets_append_br,
    if_pos rfl]
  rw [h1]
  simp only [Bool.false_eq_true, if_false]
  simp only [stripBrackets_append_br k.data h1, hkmk]
  rw [if_pos h2]

/-- C3: sequences are iterated element-by-element without consuming a path
segment (at every nesting depth, since elements may themselves be
sequences), and the `[]` suffix of a path token is purely documentary: it
compiles to the same segments as the plain key, so any two paths with equal
compiled segments redact identically. -/
theorem arrays_transparent_and_array_suffix_documentary :
    (∀ (xs : ValueList) (parts : List String) (i : Nat) (rule : RedactionRule),
      traverseAndRedact (.arr xs) parts i rule =
        .arr (mapList (fun x => traverseAndRedact x parts i rule) xs)) ∧
    (∀ k : String, hasBrackets k.data = false → k ≠ "" → k ≠ "*" →
      tokenSegments (k ++ "[]") = tokenSegments k) ∧
    (∀ (p q : String) (v : Value) (rule : RedactionRule),
      parsePath p = parsePath q → applyRedaction v p rule = applyRedaction v q rule) ∧
    parsePath "entries[].data.password" = parsePath "entries.data.password" := by
  refine ⟨?_, ?_, ?_, by decide⟩
  · intro xs parts i rule
    by_cases h : i < parts.length
    · rw [trav_arr xs parts i rule h, traverseList_map]
    · rw [trav_stop _ _ _ _ (by omega), mapList_trav_stop _ _ _ _ (by omega)]
  · exact tokenSegments_array_suffix
  · intro p q v rule h
    rw [applyRedaction, applyRedaction, h]

/-- Witness for C3 at concrete inputs: the `entries[]` token compiles like
`entries`, and redacting a concrete record through `items[].token` equals
redacting it through `items.token`. -/
theorem arrays_transparent_and_array_suffix_documentary_witness :
    tokenSegments ("entries" ++ "[]") = tokenSegments "entries" ∧
    applyRedaction
        (.obj (.cons "items" (.arr (.cons (.obj (.cons "token" (.str "t") .nil)) .nil)) .nil))
        "items[].token" ⟨["items[].token"], .mask, none⟩ =
      applyRedaction
        (.obj (.cons "items" (.arr (.cons (.obj (.cons "token" (.str "t") .nil)) .nil)) .nil))
        "items.token" ⟨["items[].token"], .mask, none⟩ :=
  ⟨arrays_transparent_and_array_suffix_documentary.2.1 "entries" (by decide) (by decide)
      (by decide),
    arrays_transparent_and_array_suffix_documentary.2.2.1 "items[].token" "items.token" _ _
      (by decide)⟩

/-- C4: a key-wildcard with more than one following segment iterates only
the immediate keys of the current mapping and recurses exactly one level
into each value, with the segment index advanced past the wildcard. -/
theorem wildcard_midpath_iterates_one_level (fs : Fields) (parts : List String) (i : Nat)
    (rule : RedactionRule) (h : i < parts.length) (hp : parts.getD i "" = "*")
    (h2 : i + 1 < parts.length - 1) :
    traverseAndRedact (.obj fs) parts i rule =
      .obj (mapValues (fun v => traverseAndRedact v parts (i + 1) rule) fs) := by
  rw [trav_obj_wild_iter fs parts i rule h hp (by omega), traverseFields_map]

/-- Witness for C4 at a concrete record and the path `a.*.b.c`. -/
theorem wildcard_midpath_iterates_one_level_witness :
    traverseAndRedact
        (.obj (.cons "x" (.obj (.cons "b" (.obj (.cons "c" (.str "s") .nil)) .nil)) .nil))
        ["a", "*", "b", "c"] 1 ⟨["a.*.b.c"], .mask, none⟩ =
      .obj (mapValues
        (fun v => traverseAndRedact v ["a", "*", "b", "c"] 2 ⟨["a.*.b.c"], .mask, none⟩)
        (.cons "x" (.obj (.cons "b" (.obj (.cons "c" (.str "s") .nil)) .nil)) .nil)) :=
  wildcard_midpath_iterates_one_level _ _ 1 _ (by decide) (by decide) (by decide)

/-- C5: when the final path segment is a literal key reached by a
non-wildcard terminal step and the key's value is itself a mapping or a
sequence, the leaf applier leaves the key and its value untouched, for
every action. -/
theorem literal_terminal_skips_container_values (fs : Fields) (parts : List String)
    (i : Nat) (rule : RedactionRule) (k : String) (h : i < parts.length)
    (hp : parts.getD i "" = k) (hk : k ≠ "*") (hl : i = parts.length - 1)
    (v : Value) (hv : lookupF fs k = some v) (hc : isContainer v = true) :
    traverseAndRedact (.obj fs) parts i rule = .obj fs ∧ redactValue fs k rule = fs := by
  have hrv : redactValue fs k rule = fs := by
    rw [redactValue, hv]
    exact if_pos hc
  refine ⟨?_, hrv⟩
  rw [trav_obj_last fs parts i rule h (by rw [hp]; exact hk) hl, hp, hrv]

/-- Witness for C5: `attributes.meta` points at a mapping, which every
action leaves untouched. -/
theorem literal_terminal_skips_container_values_witness :
    traverseAndRedact (.obj (.cons "meta" (.obj (.cons "c" (.str "x") .nil)) .nil))
        ["attributes", "meta"] 1 ⟨["attributes.meta"], .remove, none⟩ =
      .obj (.cons "meta" (.obj (.cons "c" (.str "x") .nil)) .nil) ∧
    redactValue (.cons "meta" (.obj (.cons "c" (.str "x") .nil)) .nil) "meta"
        ⟨["attributes.meta"], .remove, none⟩ =
      .cons "meta" (.obj (.cons "c" (.str "x") .nil)) .nil :=
  literal_terminal_skips_container_values _ _ 1 _ "meta" (by decide) (by decide) (by decide)
    (by decide) (.obj (.cons "c" (.str "x") .nil)) (by decide) (by decide)

/-! Equivalence of `recursiveSearch` with the spec-worded targeted search. -/

theorem spec_leaf (v : Value) (k : String) (rule : RedactionRule)
    (h : isContainer v = false) : specTargetedSearch v k rule = v := by
  cases v with
  | arr xs => simp [isContainer] at h
  | obj fs => simp [isContainer] at h
  | null => rfl
  | bool b => rfl
  | num n => rfl
  | str s => rfl

theorem isContainer_spec (v : Value) (k : String) (rule : RedactionRule) :
    isContainer (specTargetedSearch v k rule) = isContainer v := by
  cases v <;> rfl

mutual
theorem recursiveSearch_eq_spec : ∀ (v : Value) (k : String) (rule : RedactionRule),
    recursiveSearch v k rule = specTargetedSearch v k rule
  | .null, _, _ => rfl
  | .bool _, _, _ => rfl
  | .num _, _, _ => rfl
  | .str _, _, _ => rfl
  | .arr xs, k, rule => by
    rw [recursiveSearch, specTargetedSearch, searchList_eq_spec xs k rule]
  | .obj fs, k, rule => by
    rw [recursiveSearch, specTargetedSearch, searchFields_eq_spec fs k rule]
theorem searchList_eq_spec : ∀ (xs : ValueList) (k : String) (rule : RedactionRule),
    searchList xs k rule = specSearchList xs k rule
  | .nil, _, _ => rfl
  | .cons v t, k, rule => by
    rw [searchList, specSearchList, recursiveSearch_eq_spec v k rule,
      searchList_eq_spec t k rule]
theorem searchFields_eq_spec : ∀ (fs : Fields) (k : String) (rule : RedactionRule),
    searchFields fs k rule = specSearchFields fs k rule
  | .nil, _, _ => rfl
  | .cons k' v t, k, rule => by
    rw [searchFields, specSearchFields]
    by_cases hk : k' = k
    · rw [if_pos hk, if_pos hk]
      by_cases hc : isContainer v = true
      · rw [if_pos hc]
        simp only [redactValue, lookupF, if_pos hk, isContainer_spec, hc, if_true, appendF]
        rw [recursiveSearch_eq_spec v k rule, searchFields_eq_spec t k rule]
      · have hc' : isContainer v = false := by simpa using hc
        rw [if_neg hc]
        simp only [redactValue, lookupF, if_pos hk, spec_leaf v k rule hc', hc',
          Bool.false_eq_true, if_false]
        cases hact : rule.action <;>
          simp only [setF, removeF, if_pos hk, appendF, searchFields_eq_spec t k rule]
    · rw [if_neg hk, if_neg hk]
      rw [recursiveSearch_eq_spec v k rule, searchFields_eq_spec t k rule]
end

/-- C2: a key-wildcard in second-to-last position followed by exactly one
final literal key `k` dispatches the walker to `recursiveSearch`, and
`recursiveSearch` coincides with the spec's targeted recursive search:
descend into every value of every key, through nested mappings and
sequences at every depth, applying the leaf applier to `k` on every mapping
that contains it. -/
theorem wildcard_second_to_last_triggers_recursive_search (fs : Fields)
    (parts : List String) (i : Nat) (rule : RedactionRule) (k : String)
    (h : i < parts.length) (hp : parts.getD i "" = "*")
    (h2 : i + 1 = parts.length - 1) (hk : parts.getD (i + 1) "" = k) (hkw : k ≠ "*") :
    traverseAndRedact (.obj fs) parts i rule = recursiveSearch (.obj fs) k rule ∧
    ∀ v : Value, recursiveSearch v k rule = specTargetedSearch v k rule := by
  constructor
  · rw [trav_obj_wild_search fs parts i rule h hp h2, hk]
  · intro v
    exact recursiveSearch_eq_spec v k rule

/-- Witness for C2 at the path `attributes.*.password` and a concrete
deeply nested record. -/
theorem wildcard_second_to_last_triggers_recursive_search_witness :
    traverseAndRedact (.obj (.cons "a" (.obj (.cons "password" (.str "p") .nil)) .nil))
        ["attributes", "*", "password"] 1 ⟨["attributes.*.password"], .mask, none⟩ =
      recursiveSearch (.obj (.cons "a" (.obj (.cons "password" (.str "p") .nil)) .nil))
        "password" ⟨["attributes.*.password"], .mask, none⟩ ∧
    recursiveSearch (.obj (.cons "x" (.arr (.cons (.obj (.cons "password" (.str "q") .nil))
          .nil)) .nil)) "password" ⟨["attributes.*.password"], .mask, none⟩ =
      specTargetedSearch (.obj (.cons "x" (.arr (.cons (.obj (.cons "password" (.str "q")
          .nil)) .nil)) .nil)) "password" ⟨["attributes.*.password"], .mask, none⟩ := by
  have h := wildcard_second_to_last_triggers_recursive_search
    (.cons "a" (.obj (.cons "password" (.str "p") .nil)) .nil)
    ["attributes", "*", "password"] 1 ⟨["attributes.*.password"], .mask, none⟩ "password"
    (by decide) (by decide) (by decide) (by decide) (by decide)
  exact ⟨h.1, h.2 _⟩

/-! Empty-segment lemmas (C9). -/

theorem noEmptyKeyF_cons (k : String) (v : Value) (t : Fields)
    (h : noEmptyKeyF (.cons k v t) = true) :
    k ≠ "" ∧ noEmptyKeyV v = true ∧ noEmptyKeyF t = true := by
  simp only [noEmptyKeyF, Bool.and_eq_true, Bool.not_eq_true', decide_eq_false_iff_not] at h
  exact ⟨h.1.1, h.1.2, h.2⟩

theorem lookupF_empty_none : ∀ fs : Fields, noEmptyKeyF fs = true → lookupF fs "" = none
  | .nil, _ => rfl
  | .cons k v t, h => by
    obtain ⟨hk, _, ht⟩ := noEmptyKeyF_cons k v t h
    rw [lookupF, if_neg hk, lookupF_empty_none t ht]

mutual
theorem searchEmpty_v : ∀ (v : Value) (rule : RedactionRule),
    noEmptyKeyV v = true → recursiveSearch v "" rule = v
  | .null, _, _ => rfl
  | .bool _, _, _ => rfl
  | .num _, _, _ => rfl
  | .str _, _, _ => rfl
  | .arr xs, rule, h => by rw [recursiveSearch, searchEmpty_l xs rule h]
  | .obj fs, rule, h => by rw [recursiveSearch, searchEmpty_f fs rule h]
theorem searchEmpty_l : ∀ (xs : ValueList) (rule : RedactionRule),
    noEmptyKeyL xs = true → searchList xs "" rule = xs
  | .nil, _, _ => rfl
  | .cons v t, rule, h => by
    have h' : noEmptyKeyV v = true ∧ noEmptyKeyL t = true := by
      simpa [noEmptyKeyL, Bool.and_eq_true] using h
    rw [searchList, searchEmpty_v v rule h'.1, searchEmpty_l t rule h'.2]
theorem searchEmpty_f : ∀ (fs : Fields) (rule : RedactionRule),
    noEmptyKeyF fs = true → searchFields fs "" rule = fs
  | .nil, _, _ => rfl
  | .cons k v t, rule, h => by
    obtain ⟨hk, hv, ht⟩ := noEmptyKeyF_cons k v t h
    rw [searchFields, if_neg hk, searchEmpty_v v rule hv, searchEmpty_f t rule ht]
end

mutual
theorem emptySeg_noop_v : ∀ (v : Value) (parts : List String) (i : Nat)
    (rule : RedactionRule), noEmptyKeyV v = true →
    (∃ j, i ≤ j ∧ j < parts.length ∧ parts.getD j "" = "") →
    traverseAndRedact v parts i rule = v
  | .null, parts, i, rule, _, _ => trav_null parts i rule
  | .bool b, parts, i, rule, _, _ => trav_bool b parts i rule
  | .num n, parts, i, rule, _, _ => trav_num n parts i rule
  | .str s, parts, i, rule, _, _ => trav_str s parts i rule
  | .arr xs, parts, i, rule, hne, hj => by
    have hi : i < parts.length := by obtain ⟨j, h1, h2, _⟩ := hj; omega
    rw [trav_arr xs parts i rule hi, emptySeg_noop_l xs parts i rule hne hj]
  | .obj fs, parts, i, rule, hne, hj => by
    have hi : i < parts.length := by obtain ⟨j, h1, h2, _⟩ := hj; omega
    by_cases hw : parts.getD i "" = "*"
    · by_cases h2 : i + 1 = parts.length - 1
      · rw [trav_obj_wild_search fs parts i rule hi hw h2]
        have htgt : parts.getD (i + 1) "" = "" := by
          obtain ⟨j, hj1, hj2, hj3⟩ := hj
          have hji : j = i + 1 := by
            rcases Nat.eq_or_lt_of_le hj1 with he | hlt
            · exfalso
              subst he
              exact absurd (hj3.symm.trans hw) (by decide)
            · omega
          rwa [hji] at hj3
        rw [htgt]
        exact searchEmpty_v (.obj fs) rule hne
      · rw [trav_obj_wild_iter fs parts i rule hi hw h2]
        have hj' : ∃ j, i + 1 ≤ j ∧ j < parts.length ∧ parts.getD j "" = "" := by
          obtain ⟨j, hj1, hj2, hj3⟩ := hj
          refine ⟨j, ?_, hj2, hj3⟩
          rcases Nat.eq_or_lt_of_le hj1 with he | hlt
          · exfalso
            subst he
            exact absurd (hj3.symm.trans hw) (by decide)
          · omega
        rw [emptySeg_noop_fall fs parts (i + 1) rule hne hj']
    · by_cases hl : i = parts.length - 1
      · rw [trav_obj_last fs parts i rule hi hw hl]
        have hpart : parts.getD i "" = "" := by
          obtain ⟨j, hj1, hj2, hj3⟩ := hj
          have hji : j = i := by omega
          rwa [hji] at hj3
        rw [hpart, redactValue, lookupF_empty_none fs hne]
      · by_cases hp0 : parts.getD i "" = ""
        · rw [trav_obj_miss fs parts i rule hi hw hl (by rw [hp0]; exact lookupF_empty_none fs hne)]
        · have hj' : ∃ j, i + 1 ≤ j ∧ j < parts.length ∧ parts.getD j "" = "" := by
            obtain ⟨j, hj1, hj2, hj3⟩ := hj
            refine ⟨j, ?_, hj2, hj3⟩
            rcases Nat.eq_or_lt_of_le hj1 with he | hlt
            · exfalso
              subst he
              exact hp0 hj3
            · omega
          cases hlk : lookupF fs (parts.getD i "") with
          | none => rw [trav_obj_miss fs parts i rule hi hw hl hlk]
          | some u =>
            rw [trav_obj_step fs parts i rule hi hw hl (by rw [hlk]; rfl),
              emptySeg_noop_atkey fs (parts.getD i "") parts (i + 1) rule hne hj']
theorem emptySeg_noop_l : ∀ (xs : ValueList) (parts : List String) (i : Nat)
    (rule : RedactionRule), noEmptyKeyL xs = true →
    (∃ j, i ≤ j ∧ j < parts.length ∧ parts.getD j "" = "") →
    traverseList xs parts i rule = xs
  | .nil, _, _, _, _, _ => rfl
  | .cons v t, parts, i, rule, hne, hj => by
    have h' : noEmptyKeyV v = true ∧ noEmptyKeyL t = true := by
      simpa [noEmptyKeyL, Bool.and_eq_true] using hne
    rw [traverseList, emptySeg_noop_v v parts i rule h'.1 hj,
      emptySeg_noop_l t parts i rule h'.2 hj]
theorem emptySeg_noop_fall : ∀ (fs : Fields) (parts : List String) (i : Nat)
    (rule : RedactionRule), noEmptyKeyF fs = true →
    (∃ j, i ≤ j ∧ j < parts.length ∧ parts.getD j "" = "") →
    traverseFields fs parts i rule = fs
  | .nil, _, _, _, _, _ => rfl
  | .cons k v t, parts, i, rule, hne, hj => by
    obtain ⟨_, hv, ht⟩ := noEmptyKeyF_cons k v t hne
    rw [traverseFields, emptySeg_noop_v v parts i rule hv hj,
      emptySeg_noop_fall t parts i rule ht hj]
theorem emptySeg_noop_atkey : ∀ (fs : Fields) (key : String) (parts : List String)
    (i : Nat) (rule : RedactionRule), noEmptyKeyF fs = true →
    (∃ j, i ≤ j ∧ j < parts.length ∧ parts.getD j "" = "") →
    traverseAtKey fs key parts i rule = fs
  | .nil, _, _, _, _, _, _ => rfl
  | .cons k v t, key, parts, i, rule, hne, hj => by
    obtain ⟨_, hv, ht⟩ := noEmptyKeyF_cons k v t hne
    rw [traverseAtKey]
    by_cases hkk : k = key
    · rw [if_pos hkk, emptySeg_noop_v v parts i rule hv hj]
    · rw [if_neg hkk, emptySeg_noop_atkey t key parts i rule ht hj]
end

/-- C9 counterexample: the empty-string segment produced by a trailing dot
does match the empty-string key `""` of a mapping (JavaScript objects may
have such a key), so "never matches any key of any mapping" fails: the rule
redacts through the empty segment. -/
theorem empty_segment_matches_empty_key :
    parsePath "attributes." = ["attributes", ""] ∧
    redact [⟨["attributes."], .mask, none⟩]
        (.obj (.cons "attributes" (.obj (.cons "" (.str "s") .nil)) .nil)) =
      .obj (.cons "attributes" (.obj (.cons "" (.str "[REDACTED]") .nil)) .nil) := by
  constructor
  · decide
  · decide

/-- C9 (amended): an empty path token compiles to an empty-string literal
segment; that segment matches only an empty-string mapping key, so on every
record none of whose mappings has an empty-string key, traversal at that
segment is a no-op and nothing is redacted through it. -/
theorem empty_token_segment_never_matches_without_empty_keys :
    parsePath "a..b" = ["a", "", "b"] ∧
    ∀ (v : Value) (parts : List String) (i : Nat) (rule : RedactionRule),
      noEmptyKeyV v = true →
      (∃ j, i ≤ j ∧ j < parts.length ∧ parts.getD j "" = "") →
      traverseAndRedact v parts i rule = v := by
  exact ⟨by decide, emptySeg_noop_v⟩

/-- Witness for C9's amended theorem: the path `a..b` is a no-op on a
record with an `a.b` field and no empty-string keys. -/
theorem empty_token_segment_never_matches_without_empty_keys_witness :
    traverseAndRedact (.obj (.cons "a" (.obj (.cons "b" (.str "s") .nil)) .nil))
        ["a", "", "b"] 0 ⟨["a..b"], .mask, none⟩ =
      .obj (.cons "a" (.obj (.cons "b" (.str "s") .nil)) .nil) :=
  empty_token_segment_never_matches_without_empty_keys.2 _ ["a", "", "b"] 0 _
    (by decide) ⟨1, by decide, by decide, by decide⟩

/-! Trailing-wildcard lemmas (C10). -/

mutual
theorem trailwild_noop_v : ∀ (v : Value) (parts : List String) (i : Nat)
    (rule : RedactionRule), parts.getD (parts.length - 1) "" = "*" →
    (2 ≤ parts.length → parts.getD (parts.length - 2) "" ≠ "*") →
    traverseAndRedact v parts i rule = v
  | .null, parts, i, rule, _, _ => trav_null parts i rule
  | .bool b, parts, i, rule, _, _ => trav_bool b parts i rule
  | .num n, parts, i, rule, _, _ => trav_num n parts i rule
  | .str s, parts, i, rule, _, _ => trav_str s parts i rule
  | .arr xs, parts, i, rule, hlast, hprev => by
    by_cases hi : i < parts.length
    · rw [trav_arr xs parts i rule hi, trailwild_noop_l xs parts i rule hlast hprev]
    · exact trav_stop _ _ _ _ (by omega)
  | .obj fs, parts, i, rule, hlast, hprev => by
    by_cases hi : i < parts.length
    · by_cases hw : parts.getD i "" = "*"
      · by_cases h2 : i + 1 = parts.length - 1
        · exfalso
          apply hprev (by omega)
          rw [show parts.length - 2 = i from by omega]
          exact hw
        · rw [trav_obj_wild_iter fs parts i rule hi hw h2,
            trailwild_noop_fall fs parts (i + 1) rule hlast hprev]
      · by_cases hl : i = parts.length - 1
        · exfalso
          rw [hl] at hw
          exact hw hlast
        · cases hlk : lookupF fs (parts.getD i "") with
          | none => rw [trav_obj_miss fs parts i rule hi hw hl hlk]
          | some u =>
            rw [trav_obj_step fs parts i rule hi hw hl (by rw [hlk]; rfl),
              trailwild_noop_atkey fs (parts.getD i "") parts (i + 1) rule hlast hprev]
    · exact trav_stop _ _ _ _ (by omega)
theorem trailwild_noop_l : ∀ (xs : ValueList) (parts : List String) (i : Nat)
    (rule : RedactionRule), parts.getD (parts.length - 1) "" = "*" →
    (2 ≤ parts.length → parts.getD (parts.length - 2) "" ≠ "*") →
    traverseList xs parts i rule = xs
  | .nil, _, _, _, _, _ => rfl
  | .cons v t, parts, i, rule, hlast, hprev => by
    rw [traverseList, trailwild_noop_v v parts i rule hlast hprev,
      trailwild_noop_l t parts i rule hlast hprev]
theorem trailwild_noop_fall : ∀ (fs : Fields) (parts : List String) (i : Nat)
    (rule : RedactionRule), parts.getD (parts.length - 1) "" = "*" →
    (2 ≤ parts.length → parts.getD (parts.length - 2) "" ≠ "*") →
    traverseFields fs parts i rule = fs
  | .nil, _, _, _, _, _ => rfl
  | .cons k v t, parts, i, rule, hlast, hprev => by
    rw [traverseFields, trailwild_noop_v v parts i rule hlast hprev,
      trailwild_noop_fall t parts i rule hlast hprev]
theorem trailwild_noop_atkey : ∀ (fs : Fields) (key : String) (parts : List String)
    (i : Nat) (rule : RedactionRule), parts.getD (parts.length - 1) "" = "*" →
    (2 ≤ parts.length → parts.getD (parts.length - 2) "" ≠ "*") →
    traverseAtKey fs key parts i rule = fs
  | .nil, _, _, _, _, _, _ => rfl
  | .cons k v t, key, parts, i, rule, hlast, hprev => by
    rw [traverseAtKey]
    by_cases hkk : k = key
    · rw [if_pos hkk, trailwild_noop_v v parts i rule hlast hprev]
    · rw [if_neg hkk, trailwild_noop_atkey t key parts i rule hlast hprev]
end

/-- C10 counterexample: for the path `*.*` (whose last compiled segment is
the key-wildcard) the walker performs a recursive search for the literal
key `*`, so a record owning a key named `*` is redacted: the cloned record
is not left unchanged. -/
theorem trailing_wildcard_after_wildcard_does_redact :
    parsePath "*.*" = ["*", "*"] ∧
    redact [⟨["*.*"], .mask, none⟩] (.obj (.cons "*" (.str "x") .nil)) =
      .obj (.cons "*" (.str "[REDACTED]") .nil) ∧
    redact [⟨["*.*"], .mask, none⟩] (.obj (.cons "*" (.str "x") .nil)) ≠
      .obj (.cons "*" (.str "x") .nil) := by
  refine ⟨by decide, by decide, by decide⟩

/-- C10 (amended): a path whose last compiled segment is the key-wildcard
`*` redacts nothing — the walker leaves every value unchanged — provided
the second-to-last compiled segment is not itself a wildcard (for a path
ending `*.*` the walker instead searches for the literal key `*`). -/
theorem trailing_wildcard_redacts_nothing (parts : List String)
    (hlast : parts.getD (parts.length - 1) "" = "*")
    (hprev : 2 ≤ parts.length → parts.getD (parts.length - 2) "" ≠ "*") :
    (∀ (v : Value) (i : Nat) (rule : RedactionRule),
      traverseAndRedact v parts i rule = v) ∧
    (∀ (v : Value) (rule : RedactionRule) (path : String), parsePath path = parts →
      applyRedaction v path rule = v) := by
  constructor
  · intro v i rule
    exact trailwild_noop_v v parts i rule hlast hprev
  · intro v rule path hp
    rw [applyRedaction, hp]
    exact trailwild_noop_v v parts 0 rule hlast hprev

/-- Witness for C10's amended theorem: `attributes.*` is a no-op on a
concrete record. -/
theorem trailing_wildcard_redacts_nothing_witness :
    applyRedaction (.obj (.cons "attributes" (.obj (.cons "a" (.str "x") .nil)) .nil))
        "attributes.*" ⟨["attributes.*"], .remove, none⟩ =
      .obj (.cons "attributes" (.obj (.cons "a" (.str "x") .nil)) .nil) :=
  (trailing_wildcard_redacts_nothing ["attributes", "*"] (by decide) (by decide)).2 _ _
    "attributes.*" (by decide)

/-! Removal lemmas (C6). -/

theorem lookupF_removeF : ∀ (fs : Fields) (k : String), lookupF (removeF fs k) k = none
  | .nil, _ => rfl
  | .cons k' v t, k => by
    rw [removeF]
    by_cases h : k' = k
    · rw [if_pos h]
      exact lookupF_removeF t k
    · rw [if_neg h, lookupF, if_neg h]
      exact lookupF_removeF t k

theorem memKeyF_removeF : ∀ (fs : Fields) (k : String), memKeyF (removeF fs k) k = false
  | .nil, _ => rfl
  | .cons k' v t, k => by
    rw [removeF]
    by_cases h : k' = k
    · rw [if_pos h]
      exact memKeyF_removeF t k
    · rw [if_neg h, memKeyF, memKeyF_removeF t k]
      simp [h]

/-- C6 counterexample: a `remove` rule whose path matches the key `b` on the
`attributes` mapping leaves `b` present when its value is itself a mapping
(the leaf applier skips container-valued targets), so "after redact the key
is entirely absent" fails as stated. -/
theorem remove_skips_container_valued_key :
    redact [⟨["attributes.b"], .remove, none⟩]
        (.obj (.cons "attributes"
          (.obj (.cons "b" (.obj (.cons "c" (.str "x") .nil)) .nil)) .nil)) =
      .obj (.cons "attributes"
        (.obj (.cons "b" (.obj (.cons "c" (.str "x") .nil)) .nil)) .nil) ∧
    getPath (redact [⟨["attributes.b"], .remove, none⟩]
        (.obj (.cons "attributes"
          (.obj (.cons "b" (.obj (.cons "c" (.str "x") .nil)) .nil)) .nil)))
      ["attributes", "b"] = some (.obj (.cons "c" (.str "x") .nil)) := by
  refine ⟨by decide, by decide⟩

/-- C6 (amended): for a `remove` rule whose path matches a key holding a
leaf (non-container) value on a mapping, after redaction the key is
entirely absent from that mapping — the membership test is false, not
merely a null value. -/
theorem remove_deletes_matched_leaf_key_entirely (fs : Fields) (parts : List String)
    (i : Nat) (rule : RedactionRule) (k : String) (h : i < parts.length)
    (hp : parts.getD i "" = k) (hk : k ≠ "*") (hl : i = parts.length - 1)
    (v : Value) (hv : lookupF fs k = some v) (hc : isContainer v = false)
    (ha : rule.action = .remove) :
    traverseAndRedact (.obj fs) parts i rule = .obj (removeF fs k) ∧
    lookupF (removeF fs k) k = none ∧ memKeyF (removeF fs k) k = false := by
  have hrv : redactValue fs k rule = removeF fs k := by
    simp only [redactValue, hv, hc, Bool.false_eq_true, if_false, ha]
  refine ⟨?_, lookupF_removeF fs k, memKeyF_removeF fs k⟩
  rw [trav_obj_last fs parts i rule h (by rw [hp]; exact hk) hl, hp, hrv]

/-- Witness for C6's amended theorem: removing `attributes.creditCard`
(a string leaf) leaves the key absent. -/
theorem remove_deletes_matched_leaf_key_entirely_witness :
    traverseAndRedact
        (.obj (.cons "creditCard" (.str "4111") (.cons "u" (.str "user") .nil)))
        ["attributes", "creditCard"] 1 ⟨["attributes.creditCard"], .remove, none⟩ =
      .obj (removeF (.cons "creditCard" (.str "4111") (.cons "u" (.str "user") .nil))
        "creditCard") ∧
    lookupF (removeF (.cons "creditCard" (.str "4111") (.cons "u" (.str "user") .nil))
        "creditCard") "creditCard" = none ∧
    memKeyF (removeF (.cons "creditCard" (.str "4111") (.cons "u" (.str "user") .nil))
        "creditCard") "creditCard" = false :=
  remove_deletes_matched_leaf_key_entirely _ _ 1 _ "creditCard" (by decide) (by decide)
    (by decide) (by decide) (.str "4111") (by decide) (by decide) (by decide)

/-! Deletion-relation lemmas (C7): every `remove` application only deletes
entries. -/

mutual
theorem delV_refl : ∀ v : Value, delV v v
  | .null => rfl
  | .bool _ => rfl
  | .num _ => rfl
  | .str _ => rfl
  | .arr xs => delL_refl xs
  | .obj fs => delF_refl fs
theorem delL_refl : ∀ xs : ValueList, delL xs xs
  | .nil => rfl
  | .cons v t => ⟨delV_refl v, delL_refl t⟩
theorem delF_refl : ∀ fs : Fields, delF fs fs
  | .nil => rfl
  | .cons k v t => Or.inr ⟨rfl, delV_refl v, delF_refl t⟩
end

theorem delF_removeF : ∀ (fs : Fields) (k : String), delF fs (removeF fs k)
  | .nil, _ => rfl
  | .cons k' v t, k => by
    rw [removeF]
    by_cases h : k' = k
    · rw [if_pos h]
      exact Or.inl (delF_removeF t k)
    · rw [if_neg h]
      exact Or.inr ⟨rfl, delV_refl v, delF_removeF t k⟩

theorem delF_redactValue_remove (fs : Fields) (k : String) (rule : RedactionRule)
    (ha : rule.action = .remove) : delF fs (redactValue fs k rule) := by
  cases hlk : lookupF fs k with
  | none =>
    simp only [redactValue, hlk]
    exact delF_refl fs
  | some v =>
    by_cases hc : isContainer v = true
    · simp only [redactValue, hlk, hc, if_true]
      exact delF_refl fs
    · have hc' : isContainer v = false := by simpa using hc
      simp only [redactValue, hlk, hc', Bool.false_eq_true, if_false, ha]
      exact delF_removeF fs k

mutual
theorem search_del_v : ∀ (v : Value) (k : String) (rule : RedactionRule),
    rule.action = .remove → delV v (recursiveSearch v k rule)
  | .null, _, _, _ => rfl
  | .bool _, _, _, _ => rfl
  | .num _, _, _, _ => rfl
  | .str _, _, _, _ => rfl
  | .arr xs, k, rule, ha => search_del_l xs k rule ha
  | .obj fs, k, rule, ha => search_del_f fs k rule ha
theorem search_del_l : ∀ (xs : ValueList) (k : String) (rule : RedactionRule),
    rule.action = .remove → delL xs (searchList xs k rule)
  | .nil, _, _, _ => rfl
  | .cons v t, k, rule, ha => ⟨search_del_v v k rule ha, search_del_l t k rule ha⟩
theorem search_del_f : ∀ (fs : Fields) (k : String) (rule : RedactionRule),
    rule.action = .remove → delF fs (searchFields fs k rule)
  | .nil, _, _, _ => rfl
  | .cons k' v t, k, rule, ha => by
    rw [searchFields]
    by_cases hk : k' = k
    · rw [if_pos hk]
      by_cases hc : isContainer v = true
      · rw [if_pos hc]
        exact Or.inr ⟨rfl, search_del_v v k rule ha, search_del_f t k rule ha⟩
      · rw [if_neg hc, ha]
        exact Or.inl (search_del_f t k rule ha)
    · rw [if_neg hk]
      exact Or.inr ⟨rfl, search_del_v v k rule ha, search_del_f t k rule ha⟩
end

mutual
theorem trav_del_v : ∀ (v : Value) (parts : List String) (i : Nat)
    (rule : RedactionRule), rule.action = .remove →
    delV v (traverseAndRedact v parts i rule)
  | .null, parts, i, rule, _ => by rw [trav_null]; exact delV_refl _
  | .bool b, parts, i, rule, _ => by rw [trav_bool]; exact delV_refl _
  | .num n, parts, i, rule, _ => by rw [trav_num]; exact delV_refl _
  | .str s, parts, i, rule, _ => by rw [trav_str]; exact delV_refl _
  | .arr xs, parts, i, rule, ha => by
    by_cases hi : i < parts.length
    · rw [trav_arr _ _ _ _ hi]
      exact trav_del_l xs parts i rule ha
    · rw [trav_stop _ _ _ _ (by omega)]
      exact delV_refl _
  | .obj fs, parts, i, rule, ha => by
    by_cases hi : i < parts.length
    · by_cases hw : parts.getD i "" = "*"
      · by_cases h2 : i + 1 = parts.length - 1
        · rw [trav_obj_wild_search _ _ _ _ hi hw h2]
          exact search_del_v _ _ _ ha
        · rw [trav_obj_wild_iter _ _ _ _ hi hw h2]
          exact trav_del_fall fs parts (i + 1) rule ha
      · by_cases hl : i = parts.length - 1
        · rw [trav_obj_last _ _ _ _ hi hw hl]
          exact delF_redactValue_remove fs _ rule ha
        · cases hlk : lookupF fs (parts.getD i "") with
          | none =>
            rw [trav_obj_miss _ _ _ _ hi hw hl hlk]
            exact delF_refl fs
          | some u =>
            rw [trav_obj_step _ _ _ _ hi hw hl (by rw [hlk]; rfl)]
            exact trav_del_atkey fs _ parts (i + 1) rule ha
    · rw [trav_stop _ _ _ _ (by omega)]
      exact delV_refl _
theorem trav_del_l : ∀ (xs : ValueList) (parts : List String) (i : Nat)
    (rule : RedactionRule), rule.action = .remove →
    delL xs (traverseList xs parts i rule)
  | .nil, _, _, _, _ => rfl
  | .cons v t, parts, i, rule, ha =>
    ⟨trav_del_v v parts i rule ha, trav_del_l t parts i rule ha⟩
theorem trav_del_fall : ∀ (fs : Fields) (parts : List String) (i : Nat)
    (rule : RedactionRule), rule.action = .remove →
    delF fs (traverseFields fs parts i rule)
  | .nil, _, _, _, _ => rfl
  | .cons k v t, parts, i, rule, ha =>
    Or.inr ⟨rfl, trav_del_v v parts i rule ha, trav_del_fall t parts i rule ha⟩
theorem trav_del_atkey : ∀ (fs : Fields) (key : String) (parts : List String)
    (i : Nat) (rule : RedactionRule), rule.action = .remove →
    delF fs (traverseAtKey fs key parts i rule)
  | .nil, _, _, _, _, _ => rfl
  | .cons k v t, key, parts, i, rule, ha => by
    rw [traverseAtKey]
    by_cases hkk : k = key
    · rw [if_pos hkk]
      exact Or.inr ⟨rfl, trav_del_v v parts i rule ha, delF_refl t⟩
    · rw [if_neg hkk]
      exact Or.inr ⟨rfl, delV_refl v, trav_del_atkey t key parts i rule ha⟩
end

/-! Key-membership and lookup lemmas under deletion. -/

theorem lookup_none_memKey : ∀ (fs : Fields) (k : String),
    lookupF fs k = none → memKeyF fs k = false
  | .nil, _, _ => rfl
  | .cons k' v t, k, h => by
    rw [lookupF] at h
    by_cases hk : k' = k
    · rw [if_pos hk] at h
      exact absurd h (by simp)
    · rw [if_neg hk] at h
      rw [memKeyF, lookup_none_memKey t k h]
      simp [hk]

theorem memKeyF_false_lookup : ∀ (fs : Fields) (k : String),
    memKeyF fs k = false → lookupF fs k = none
  | .nil, _, _ => rfl
  | .cons k' v t, k, h => by
    rw [memKeyF, Bool.or_eq_false_iff] at h
    rw [lookupF, if_neg (by simpa using h.1)]
    exact memKeyF_false_lookup t k h.2

theorem lookup_some_memKey : ∀ (fs : Fields) (k : String) (u : Value),
    lookupF fs k = some u → memKeyF fs k = true
  | .nil, _, _, h => by simp [lookupF] at h
  | .cons k' v t, k, u, h => by
    rw [lookupF] at h
    rw [memKeyF]
    by_cases hk : k' = k
    · simp [hk]
    · rw [if_neg hk] at h
      rw [lookup_some_memKey t k u h]
      simp

theorem delF_memKey : ∀ (fs gs : Fields) (k : String), delF fs gs →
    memKeyF gs k = true → memKeyF fs k = true
  | .nil, gs, k, hd, hm => by
    rw [show gs = .nil from hd] at hm
    exact absurd hm (by simp [memKeyF])
  | .cons k' v t, gs, k, hd, hm => by
    rcases hd with hd' | hmatch
    · rw [memKeyF, delF_memKey t gs k hd' hm]
      simp
    · cases gs with
      | nil => exact hmatch.elim
      | cons k2 w t' =>
        obtain ⟨hk2, _, ht'⟩ := hmatch
        subst hk2
        rw [memKeyF] at hm ⊢
        rcases Bool.or_eq_true_iff.mp hm with h1 | h2
        · rw [h1]
          simp
        · rw [delF_memKey t t' k ht' h2]
          simp

theorem delF_lookup_none (fs gs : Fields) (k : String) (hd : delF fs gs)
    (h : lookupF fs k = none) : lookupF gs k = none := by
  apply memKeyF_false_lookup
  have hf := lookup_none_memKey fs k h
  cases hm : memKeyF gs k
  · rfl
  · exact absurd (delF_memKey fs gs k hd hm) (by simp [hf])

theorem delF_lookup_some : ∀ (fs gs : Fields) (k : String), delF fs gs →
    wfF fs = true → ∀ u', lookupF gs k = some u' →
    ∃ u, lookupF fs k = some u ∧ delV u u'
  | .nil, gs, k, hd, _, u', h => by
    rw [show gs = .nil from hd] at h
    simp [lookupF] at h
  | .cons k' v t, gs, k, hd, hw, u', h => by
    have hw' : memKeyF t k' = false ∧ wfV v = true ∧ wfF t = true := by
      simpa [wfF, Bool.and_eq_true, Bool.not_eq_true', and_assoc] using hw
    rcases hd with hd' | hmatch
    · obtain ⟨u, hu, hdel⟩ := delF_lookup_some t gs k hd' hw'.2.2 u' h
      have hk : k' ≠ k := by
        intro he
        subst he
        exact absurd (lookup_some_memKey t k' u hu) (by simp [hw'.1])
      exact ⟨u, by rw [lookupF, if_neg hk]; exact hu, hdel⟩
    · cases gs with
      | nil => exact hmatch.elim
      | cons k2 w t' =>
        obtain ⟨hk2, hdw, ht'⟩ := hmatch
        subst hk2
        rw [lookupF] at h
        by_cases hk : k2 = k
        · rw [if_pos hk] at h
          exact ⟨v, by rw [lookupF, if_pos hk], by rw [← Option.some_inj.mp h]; exact hdw⟩
        · rw [if_neg hk] at h
          obtain ⟨u, hu, hdel⟩ := delF_lookup_some t t' k ht' hw'.2.2 u' h
          exact ⟨u, by rw [lookupF, if_neg hk]; exact hu, hdel⟩

/-! Shape lemmas for the deletion relation. -/

theorem del_isContainer : ∀ (u u' : Value), delV u u' → isContainer u' = isContainer u
  | .null, u', h => by rw [show u' = .null from h]
  | .bool b, u', h => by rw [show u' = .bool b from h]
  | .num n, u', h => by rw [show u' = .num n from h]
  | .str s, u', h => by rw [show u' = .str s from h]
  | .arr xs, u', h => by
    cases u' with
    | arr ys => rfl
    | null => exact h.elim
    | bool b => exact h.elim
    | num n => exact h.elim
    | str s => exact h.elim
    | obj gs => exact h.elim
  | .obj fs, u', h => by
    cases u' with
    | obj gs => rfl
    | null => exact h.elim
    | bool b => exact h.elim
    | num n => exact h.elim
    | str s => exact h.elim
    | arr ys => exact h.elim

theorem del_leaf_eq : ∀ (u u' : Value), delV u u' → isContainer u = false → u' = u
  | .null, u', h, _ => h
  | .bool b, u', h, _ => h
  | .num n, u', h, _ => h
  | .str s, u', h, _ => h
  | .arr xs, _, _, hc => by simp [isContainer] at hc
  | .obj fs, _, _, hc => by simp [isContainer] at hc

/-! Well-formedness is preserved by deletion. -/

mutual
theorem wf_del_v : ∀ (v w : Value), delV v w → wfV v = true → wfV w = true
  | .null, w, h, _ => by rw [show w = .null from h]; rfl
  | .bool b, w, h, _ => by rw [show w = .bool b from h]; rfl
  | .num n, w, h, _ => by rw [show w = .num n from h]; rfl
  | .str s, w, h, _ => by rw [show w = .str s from h]; rfl
  | .arr xs, w, h, hw => by
    cases w with
    | arr ys => exact wf_del_l xs ys h hw
    | null => exact h.elim
    | bool b => exact h.elim
    | num n => exact h.elim
    | str s => exact h.elim
    | obj gs => exact h.elim
  | .obj fs, w, h, hw => by
    cases w with
    | obj gs => exact wf_del_f fs gs h hw
    | null => exact h.elim
    | bool b => exact h.elim
    | num n => exact h.elim
    | str s => exact h.elim
    | arr ys => exact h.elim
theorem wf_del_l : ∀ (xs ys : ValueList), delL xs ys → wfL xs = true → wfL ys = true
  | .nil, ys, h, _ => by rw [show ys = .nil from h]; rfl
  | .cons v t, ys, h, hw => by
    cases ys with
    | nil => rfl
    | cons w t' =>
      have hw' : wfV v = true ∧ wfL t = true := by
        simpa [wfL, Bool.and_eq_true] using hw
      rw [wfL, wf_del_v v w h.1 hw'.1, wf_del_l t t' h.2 hw'.2]
      rfl
theorem wf_del_f : ∀ (fs gs : Fields), delF fs gs → wfF fs = true → wfF gs = true
  | .nil, gs, h, _ => by rw [show gs = .nil from h]; rfl
  | .cons k v t, gs, h, hw => by
    have hw' : memKeyF t k = false ∧ wfV v = true ∧ wfF t = true := by
      simpa [wfF, Bool.and_eq_true, Bool.not_eq_true', and_assoc] using hw
    rcases h with h' | hmatch
    · exact wf_del_f t gs h' hw'.2.2
    · cases gs with
      | nil => exact hmatch.elim
      | cons k2 w t' =>
        obtain ⟨hk2, hdw, ht'⟩ := hmatch
        subst hk2
        have hm' : memKeyF t' k2 = false := by
          cases hm : memKeyF t' k2
          · rfl
          · exact absurd (delF_memKey t t' k2 ht' hm) (by simp [hw'.1])
        rw [wfF, hm', wf_del_v v w hdw hw'.2.1, wf_del_f t t' ht' hw'.2.2]
        rfl
end

/-! Case lemmas for `noMatchV`. -/

theorem nm_stop (v : Value) (parts : List String) (i : Nat) (h : parts.length ≤ i) :
    noMatchV v parts i = true := by
  rw [noMatchV.eq_def, if_pos (by omega : i ≥ parts.length)]

theorem nm_null (parts : List String) (i : Nat) : noMatchV .null parts i = true := by
  rw [noMatchV.eq_def]; split <;> rfl

theorem nm_bool (b : Bool) (parts : List String) (i : Nat) :
    noMatchV (.bool b) parts i = true := by
  rw [noMatchV.eq_def]; split <;> rfl

theorem nm_num (n : Int) (parts : List String) (i : Nat) :
    noMatchV (.num n) parts i = true := by
  rw [noMatchV.eq_def]; split <;> rfl

theorem nm_str (s : String) (parts : List String) (i : Nat) :
    noMatchV (.str s) parts i = true := by
  rw [noMatchV.eq_def]; split <;> rfl

theorem nm_arr (xs : ValueList) (parts : List String) (i : Nat) (h : i < parts.length) :
    noMatchV (.arr xs) parts i = noMatchL xs parts i := by
  rw [noMatchV.eq_def, if_neg (by omega : ¬ i ≥ parts.length)]

theorem nm_obj_wild_search (fs : Fields) (parts : List String) (i : Nat)
    (h : i < parts.length) (hp : parts.getD i "" = "*") (h2 : i + 1 = parts.length - 1) :
    noMatchV (.obj fs) parts i = noSearchMatchF fs (parts.getD (i + 1) "") := by
  rw [noMatchV.eq_def, if_neg (by omega : ¬ i ≥ parts.length)]
  simp only [hp, if_pos h2, if_true]

theorem nm_obj_wild_iter (fs : Fields) (parts : List String) (i : Nat)
    (h : i < parts.length) (hp : parts.getD i "" = "*") (h2 : i + 1 ≠ parts.length - 1) :
    noMatchV (.obj fs) parts i = noMatchFAll fs parts (i + 1) := by
  rw [noMatchV.eq_def, if_neg (by omega : ¬ i ≥ parts.length)]
  simp only [hp, if_neg h2, if_true]

theorem nm_obj_last (fs : Fields) (parts : List String) (i : Nat)
    (h : i < parts.length) (hp : parts.getD i "" ≠ "*") (hl : i = parts.length - 1) :
    noMatchV (.obj fs) parts i = !hasLeafKey fs (parts.getD i "") := by
  rw [noMatchV.eq_def, if_neg (by omega : ¬ i ≥ parts.length)]
  simp only [if_neg hp, if_pos hl]

theorem nm_obj_step (fs : Fields) (parts : List String) (i : Nat)
    (h : i < parts.length) (hp : parts.getD i "" ≠ "*") (hl : i ≠ parts.length - 1) :
    noMatchV (.obj fs) parts i = noMatchAtKey fs (parts.getD i "") parts (i + 1) := by
  rw [noMatchV.eq_def, if_neg (by omega : ¬ i ≥ parts.length)]
  simp only [if_neg hp, if_neg hl]

/-! Soundness of `noMatch`: where the walk matches nothing, it changes
nothing. -/

theorem noSearchMatchF_cons (k' : String) (v : Value) (t : Fields) (k : String)
    (h : noSearchMatchF (.cons k' v t) k = true) :
    (k' = k → isContainer v = true) ∧ noSearchMatchV v k = true ∧
      noSearchMatchF t k = true := by
  rw [noSearchMatchF, Bool.and_eq_true, Bool.and_eq_true] at h
  refine ⟨?_, h.1.2, h.2⟩
  intro he
  have := h.1.1
  rwa [if_pos he] at this

mutual
theorem nsearch_sound_v : ∀ (v : Value) (k : String) (rule : RedactionRule),
    noSearchMatchV v k = true → recursiveSearch v k rule = v
  | .null, _, _, _ => rfl
  | .bool _, _, _, _ => rfl
  | .num _, _, _, _ => rfl
  | .str _, _, _, _ => rfl
  | .arr xs, k, rule, h => by
    rw [recursiveSearch, nsearch_sound_l xs k rule h]
  | .obj fs, k, rule, h => by
    rw [recursiveSearch, nsearch_sound_f fs k rule h]
theorem nsearch_sound_l : ∀ (xs : ValueList) (k : String) (rule : RedactionRule),
    noSearchMatchL xs k = true → searchList xs k rule = xs
  | .nil, _, _, _ => rfl
  | .cons v t, k, rule, h => by
    rw [noSearchMatchL, Bool.and_eq_true] at h
    rw [searchList, nsearch_sound_v v k rule h.1, nsearch_sound_l t k rule h.2]
theorem nsearch_sound_f : ∀ (fs : Fields) (k : String) (rule : RedactionRule),
    noSearchMatchF fs k = true → searchFields fs k rule = fs
  | .nil, _, _, _ => rfl
  | .cons k' v t, k, rule, h => by
    obtain ⟨h1, h2, h3⟩ := noSearchMatchF_cons k' v t k h
    rw [searchFields]
    by_cases hk : k' = k
    · rw [if_pos hk, if_pos (h1 hk), nsearch_sound_v v k rule h2, nsearch_sound_f t k rule h3]
    · rw [if_neg hk, nsearch_sound_v v k rule h2, nsearch_sound_f t k rule h3]
end

theorem redactValue_no_leaf (fs : Fields) (key : String) (rule : RedactionRule)
    (h : hasLeafKey fs key = false) : redactValue fs key rule = fs := by
  cases hlk : lookupF fs key with
  | none => simp only [redactValue, hlk]
  | some v =>
    simp only [hasLeafKey, hlk] at h
    have h' : isContainer v = true := by simpa using h
    simp only [redactValue, hlk, h', if_true]

theorem nmatch_atkey_absent : ∀ (fs : Fields) (key : String) (parts : List String)
    (i : Nat), memKeyF fs key = false → noMatchAtKey fs key parts i = true
  | .nil, _, _, _, _ => rfl
  | .cons k v t, key, parts, i, h => by
    rw [memKeyF, Bool.or_eq_false_iff] at h
    rw [noMatchAtKey, if_neg (by simpa using h.1)]
    exact nmatch_atkey_absent t key parts i h.2

mutual
theorem nmatch_sound_v : ∀ (v : Value) (parts : List String) (i : Nat)
    (rule : RedactionRule), noMatchV v parts i = true →
    traverseAndRedact v parts i rule = v
  | .null, parts, i, rule, _ => trav_null parts i rule
  | .bool b, parts, i, rule, _ => trav_bool b parts i rule
  | .num n, parts, i, rule, _ => trav_num n parts i rule
  | .str s, parts, i, rule, _ => trav_str s parts i rule
  | .arr xs, parts, i, rule, h => by
    by_cases hi : i < parts.length
    · rw [nm_arr xs parts i hi] at h
      rw [trav_arr _ _ _ _ hi, nmatch_sound_l xs parts i rule h]
    · exact trav_stop _ _ _ _ (by omega)
  | .obj fs, parts, i, rule, h => by
    by_cases hi : i < parts.length
    · by_cases hw : parts.getD i "" = "*"
      · by_cases h2 : i + 1 = parts.length - 1
        · rw [nm_obj_wild_search fs parts i hi hw h2] at h
          rw [trav_obj_wild_search _ _ _ _ hi hw h2]
          exact nsearch_sound_v (.obj fs) _ rule h
        · rw [nm_obj_wild_iter fs parts i hi hw h2] at h
          rw [trav_obj_wild_iter _ _ _ _ hi hw h2,
            nmatch_sound_fall fs parts (i + 1) rule h]
      · by_cases hl : i = parts.length - 1
        · rw [nm_obj_last fs parts i hi hw hl, Bool.not_eq_true'] at h
          rw [trav_obj_last _ _ _ _ hi hw hl, redactValue_no_leaf fs _ rule h]
        · rw [nm_obj_step fs parts i hi hw hl] at h
          cases hlk : lookupF fs (parts.getD i "") with
          | none => rw [trav_obj_miss _ _ _ _ hi hw hl hlk]
          | some u =>
            rw [trav_obj_step _ _ _ _ hi hw hl (by rw [hlk]; rfl),
              nmatch_sound_atkey fs _ parts (i + 1) rule h]
    · exact trav_stop _ _ _ _ (by omega)
theorem nmatch_sound_l : ∀ (xs : ValueList) (parts : List String) (i : Nat)
    (rule : RedactionRule), noMatchL xs parts i = true →
    traverseList xs parts i rule = xs
  | .nil, _, _, _, _ => rfl
  | .cons v t, parts, i, rule, h => by
    rw [noMatchL, Bool.and_eq_true] at h
    rw [traverseList, nmatch_sound_v v parts i rule h.1, nmatch_sound_l t parts i rule h.2]
theorem nmatch_sound_fall : ∀ (fs : Fields) (parts : List String) (i : Nat)
    (rule : RedactionRule), noMatchFAll fs parts i = true →
    traverseFields fs parts i rule = fs
  | .nil, _, _, _, _ => rfl
  | .cons k v t, parts, i, rule, h => by
    rw [noMatchFAll, Bool.and_eq_true] at h
    rw [traverseFields, nmatch_sound_v v parts i rule h.1,
      nmatch_sound_fall t parts i rule h.2]
theorem nmatch_sound_atkey : ∀ (fs : Fields) (key : String) (parts : List String)
    (i : Nat) (rule : RedactionRule), noMatchAtKey fs key parts i = true →
    traverseAtKey fs key parts i rule = fs
  | .nil, _, _, _, _, _ => rfl
  | .cons k v t, key, parts, i, rule, h => by
    rw [noMatchAtKey] at h
    rw [traverseAtKey]
    by_cases hkk : k = key
    · rw [if_pos hkk] at h
      rw [if_pos hkk, nmatch_sound_v v parts i rule h]
    · rw [if_neg hkk] at h
      rw [if_neg hkk, nmatch_sound_atkey t key parts i rule h]
end

/-! After a `remove` application, no match remains. -/

theorem search_isContainer (v : Value) (k : String) (rule : RedactionRule) :
    isContainer (recursiveSearch v k rule) = isContainer v := by
  cases v <;> rfl

mutual
theorem nsearch_after_v : ∀ (v : Value) (k : String) (rule : RedactionRule),
    rule.action = .remove → noSearchMatchV (recursiveSearch v k rule) k = true
  | .null, _, _, _ => rfl
  | .bool _, _, _, _ => rfl
  | .num _, _, _, _ => rfl
  | .str _, _, _, _ => rfl
  | .arr xs, k, rule, ha => by
    rw [recursiveSearch]
    exact nsearch_after_l xs k rule ha
  | .obj fs, k, rule, ha => by
    rw [recursiveSearch]
    exact nsearch_after_f fs k rule ha
theorem nsearch_after_l : ∀ (xs : ValueList) (k : String) (rule : RedactionRule),
    rule.action = .remove → noSearchMatchL (searchList xs k rule) k = true
  | .nil, _, _, _ => rfl
  | .cons v t, k, rule, ha => by
    rw [searchList, noSearchMatchL, nsearch_after_v v k rule ha,
      nsearch_after_l t k rule ha]
    rfl
theorem nsearch_after_f : ∀ (fs : Fields) (k : String) (rule : RedactionRule),
    rule.action = .remove → noSearchMatchF (searchFields fs k rule) k = true
  | .nil, _, _, _ => rfl
  | .cons k' v t, k, rule, ha => by
    rw [searchFields]
    by_cases hk : k' = k
    · by_cases hc : isContainer v = true
      · rw [if_pos hk, if_pos hc, noSearchMatchF, if_pos hk, search_isContainer, hc,
          nsearch_after_v v k rule ha, nsearch_after_f t k rule ha]
        rfl
      · rw [if_pos hk, if_neg hc, ha]
        exact nsearch_after_f t k rule ha
    · rw [if_neg hk, noSearchMatchF, if_neg hk, nsearch_after_v v k rule ha,
        nsearch_after_f t k rule ha]
      rfl
end

theorem hasLeafKey_redactValue_remove (fs : Fields) (key : String)
    (rule : RedactionRule) (ha : rule.action = .remove) :
    hasLeafKey (redactValue fs key rule) key = false := by
  cases hlk : lookupF fs key with
  | none =>
    simp only [redactValue, hlk]
    rw [hasLeafKey, hlk]
  | some v =>
    by_cases hc : isContainer v = true
    · simp only [redactValue, hlk, hc, if_true]
      simp only [hasLeafKey, hlk, hc]
      rfl
    · have hc' : isContainer v = false := by simpa using hc
      simp only [redactValue, hlk, hc', Bool.false_eq_true, if_false, ha]
      rw [hasLeafKey, lookupF_removeF fs key]

mutual
theorem nmatch_after_v : ∀ (v : Value) (parts : List String) (i : Nat)
    (rule : RedactionRule), rule.action = .remove →
    noMatchV (traverseAndRedact v parts i rule) parts i = true
  | .null, parts, i, rule, _ => by rw [trav_null]; exact nm_null parts i
  | .bool b, parts, i, rule, _ => by rw [trav_bool]; exact nm_bool b parts i
  | .num n, parts, i, rule, _ => by rw [trav_num]; exact nm_num n parts i
  | .str s, parts, i, rule, _ => by rw [trav_str]; exact nm_str s parts i
  | .arr xs, parts, i, rule, ha => by
    by_cases hi : i < parts.length
    · rw [trav_arr _ _ _ _ hi, nm_arr _ parts i hi]
      exact nmatch_after_l xs parts i rule ha
    · exact nm_stop _ _ _ (by omega)
  | .obj fs, parts, i, rule, ha => by
    by_cases hi : i < parts.length
    · by_cases hw : parts.getD i "" = "*"
      · by_cases h2 : i + 1 = parts.length - 1
        · rw [trav_obj_wild_search _ _ _ _ hi hw h2, recursiveSearch,
            nm_obj_wild_search _ parts i hi hw h2]
          exact nsearch_after_f fs _ rule ha
        · rw [trav_obj_wild_iter _ _ _ _ hi hw h2, nm_obj_wild_iter _ parts i hi hw h2]
          exact nmatch_after_fall fs parts (i + 1) rule ha
      · by_cases hl : i = parts.length - 1
        · rw [trav_obj_last _ _ _ _ hi hw hl, nm_obj_last _ parts i hi hw hl,
            hasLeafKey_redactValue_remove fs _ rule ha]
          rfl
        · cases hlk : lookupF fs (parts.getD i "") with
          | none =>
            rw [trav_obj_miss _ _ _ _ hi hw hl hlk, nm_obj_step _ parts i hi hw hl]
            exact nmatch_atkey_absent fs _ parts (i + 1) (lookup_none_memKey fs _ hlk)
          | some u =>
            rw [trav_obj_step _ _ _ _ hi hw hl (by rw [hlk]; rfl),
              nm_obj_step _ parts i hi hw hl]
            exact nmatch_after_atkey fs _ parts (i + 1) rule ha
    · exact nm_stop _ _ _ (by omega)
theorem nmatch_after_l : ∀ (xs : ValueList) (parts : List String) (i : Nat)
    (rule : RedactionRule), rule.action = .remove →
    noMatchL (traverseList xs parts i rule) parts i = true
  | .nil, _, _, _, _ => rfl
  | .cons v t, parts, i, rule, ha => by
    rw [traverseList, noMatchL, nmatch_after_v v parts i rule ha,
      nmatch_after_l t parts i rule ha]
    rfl
theorem nmatch_after_fall : ∀ (fs : Fields) (parts : List String) (i : Nat)
    (rule : RedactionRule), rule.action = .remove →
    noMatchFAll (traverseFields fs parts i rule) parts i = true
  | .nil, _, _, _, _ => rfl
  | .cons k v t, parts, i, rule, ha => by
    rw [traverseFields, noMatchFAll, nmatch_after_v v parts i rule ha,
      nmatch_after_fall t parts i rule ha]
    rfl
theorem nmatch_after_atkey : ∀ (fs : Fields) (key : String) (parts : List String)
    (i : Nat) (rule : RedactionRule), rule.action = .remove →
    noMatchAtKey (traverseAtKey fs key parts i rule) key parts i = true
  | .nil, _, _, _, _, _ => rfl
  | .cons k v t, key, parts, i, rule, ha => by
    rw [traverseAtKey]
    by_cases hkk : k = key
    · rw [if_pos hkk, noMatchAtKey, if_pos hkk]
      exact nmatch_after_v v parts i rule ha
    · rw [if_neg hkk, noMatchAtKey, if_neg hkk]
      exact nmatch_after_atkey t key parts i rule ha
end

/-! `noMatch` is monotone under deletion of entries. -/

mutual
theorem nsearch_mono_v : ∀ (v w : Value) (k : String), delV v w →
    noSearchMatchV v k = true → noSearchMatchV w k = true
  | .null, w, k, hd, _ => by rw [show w = .null from hd]; rfl
  | .bool b, w, k, hd, _ => by rw [show w = .bool b from hd]; rfl
  | .num n, w, k, hd, _ => by rw [show w = .num n from hd]; rfl
  | .str s, w, k, hd, _ => by rw [show w = .str s from hd]; rfl
  | .arr xs, w, k, hd, hm => by
    cases w with
    | arr ys => exact nsearch_mono_l xs ys k hd hm
    | null => exact hd.elim
    | bool b => exact hd.elim
    | num n => exact hd.elim
    | str s => exact hd.elim
    | obj gs => exact hd.elim
  | .obj fs, w, k, hd, hm => by
    cases w with
    | obj gs => exact nsearch_mono_f fs gs k hd hm
    | null => exact hd.elim
    | bool b => exact hd.elim
    | num n => exact hd.elim
    | str s => exact hd.elim
    | arr ys => exact hd.elim
theorem nsearch_mono_l : ∀ (xs ys : ValueList) (k : String), delL xs ys →
    noSearchMatchL xs k = true → noSearchMatchL ys k = true
  | .nil, ys, k, hd, _ => by rw [show ys = .nil from hd]; rfl
  | .cons v t, ys, k, hd, hm => by
    cases ys with
    | nil => rfl
    | cons w t' =>
      rw [noSearchMatchL, Bool.and_eq_true] at hm
      rw [noSearchMatchL, nsearch_mono_v v w k hd.1 hm.1, nsearch_mono_l t t' k hd.2 hm.2]
      rfl
theorem nsearch_mono_f : ∀ (fs gs : Fields) (k : String), delF fs gs →
    noSearchMatchF fs k = true → noSearchMatchF gs k = true
  | .nil, gs, k, hd, _ => by rw [show gs = .nil from hd]; rfl
  | .cons k' v t, gs, k, hd, hm => by
    obtain ⟨h1, h2, h3⟩ := noSearchMatchF_cons k' v t k hm
    rcases hd with hd' | hmatch
    · exact nsearch_mono_f t gs k hd' h3
    · cases gs with
      | nil => rfl
      | cons k2 w t' =>
        obtain ⟨hk2, hdw, ht'⟩ := hmatch
        subst hk2
        rw [noSearchMatchF]
        have c1 : (if k2 = k then isContainer w else true) = true := by
          by_cases hk : k2 = k
          · rw [if_pos hk, del_isContainer v w hdw]
            exact h1 hk
          · rw [if_neg hk]
        rw [c1, nsearch_mono_v v w k hdw h2, nsearch_mono_f t t' k ht' h3]
        rfl
end

theorem hasLeafKey_mono (fs gs : Fields) (key : String) (hw : wfF fs = true)
    (hd : delF fs gs) (hm : hasLeafKey fs key = false) :
    hasLeafKey gs key = false := by
  cases hlk : lookupF gs key with
  | none => rw [hasLeafKey, hlk]
  | some u' =>
    obtain ⟨u, hu, hdel⟩ := delF_lookup_some fs gs key hd hw u' hlk
    simp only [hasLeafKey, hu] at hm
    have hcu : isContainer u = true := by simpa using hm
    simp only [hasLeafKey, hlk, del_isContainer u u' hdel, hcu]
    rfl

mutual
theorem nmatch_mono_v : ∀ (v w : Value) (parts : List String) (i : Nat),
    wfV v = true → delV v w → noMatchV v parts i = true → noMatchV w parts i = true
  | .null, w, parts, i, _, hd, _ => by rw [show w = .null from hd]; exact nm_null parts i
  | .bool b, w, parts, i, _, hd, _ => by rw [show w = .bool b from hd]; exact nm_bool b parts i
  | .num n, w, parts, i, _, hd, _ => by rw [show w = .num n from hd]; exact nm_num n parts i
  | .str s, w, parts, i, _, hd, _ => by rw [show w = .str s from hd]; exact nm_str s parts i
  | .arr xs, w, parts, i, hw, hd, hm => by
    cases w with
    | arr ys =>
      by_cases hi : i < parts.length
      · rw [nm_arr ys parts i hi]
        rw [nm_arr xs parts i hi] at hm
        exact nmatch_mono_l xs ys parts i hw hd hm
      · exact nm_stop _ _ _ (by omega)
    | null => exact hd.elim
    | bool b => exact hd.elim
    | num n => exact hd.elim
    | str s => exact hd.elim
    | obj gs => exact hd.elim
  | .obj fs, w, parts, i, hw, hd, hm => by
    cases w with
    | obj gs =>
      by_cases hi : i < parts.length
      · by_cases hwild : parts.getD i "" = "*"
        · by_cases h2 : i + 1 = parts.length - 1
          · rw [nm_obj_wild_search fs parts i hi hwild h2] at hm
            rw [nm_obj_wild_search gs parts i hi hwild h2]
            exact nsearch_mono_f fs gs _ hd hm
          · rw [nm_obj_wild_iter fs parts i hi hwild h2] at hm
            rw [nm_obj_wild_iter gs parts i hi hwild h2]
            exact nmatch_mono_fall fs gs parts (i + 1) hw hd hm
        · by_cases hl : i = parts.length - 1
          · rw [nm_obj_last fs parts i hi hwild hl] at hm
            have hm' : hasLeafKey fs (parts.getD i "") = false := by simpa using hm
            rw [nm_obj_last gs parts i hi hwild hl,
              hasLeafKey_mono fs gs _ hw hd hm']
            rfl
          · rw [nm_obj_step fs parts i hi hwild hl] at hm
            rw [nm_obj_step gs parts i hi hwild hl]
            exact nmatch_mono_atkey fs gs _ parts (i + 1) hw hd hm
      · exact nm_stop _ _ _ (by omega)
    | null => exact hd.elim
    | bool b => exact hd.elim
    | num n => exact hd.elim
    | str s => exact hd.elim
    | arr ys => exact hd.elim
theorem nmatch_mono_l : ∀ (xs ys : ValueList) (parts : List String) (i : Nat),
    wfL xs = true → delL xs ys → noMatchL xs parts i = true → noMatchL ys parts i = true
  | .nil, ys, _, _, _, hd, _ => by rw [show ys = .nil from hd]; rfl
  | .cons v t, ys, parts, i, hw, hd, hm => by
    cases ys with
    | nil => rfl
    | cons w t' =>
      have hw' : wfV v = true ∧ wfL t = true := by
        simpa [wfL, Bool.and_eq_true] using hw
      rw [noMatchL, Bool.and_eq_true] at hm
      rw [noMatchL, nmatch_mono_v v w parts i hw'.1 hd.1 hm.1,
        nmatch_mono_l t t' parts i hw'.2 hd.2 hm.2]
      rfl
theorem nmatch_mono_fall : ∀ (fs gs : Fields) (parts : List String) (i : Nat),
    wfF fs = true → delF fs gs → noMatchFAll fs parts i = true →
    noMatchFAll gs parts i = true
  | .nil, gs, _, _, _, hd, _ => by rw [show gs = .nil from hd]; rfl
  | .cons k v t, gs, parts, i, hw, hd, hm => by
    have hw' : memKeyF t k = false ∧ wfV v = true ∧ wfF t = true := by
      simpa [wfF, Bool.and_eq_true, Bool.not_eq_true', and_assoc] using hw
    rw [noMatchFAll, Bool.and_eq_true] at hm
    rcases hd with hd' | hmatch
    · exact nmatch_mono_fall t gs parts i hw'.2.2 hd' hm.2
    · cases gs with
      | nil => rfl
      | cons k2 w t' =>
        obtain ⟨hk2, hdw, ht'⟩ := hmatch
        rw [noMatchFAll, nmatch_mono_v v w parts i hw'.2.1 hdw hm.1,
          nmatch_mono_fall t t' parts i hw'.2.2 ht' hm.2]
        rfl
theorem nmatch_mono_atkey : ∀ (fs gs : Fields) (key : String) (parts : List String)
    (i : Nat), wfF fs = true → delF fs gs → noMatchAtKey fs key parts i = true →
    noMatchAtKey gs key parts i = true
  | .nil, gs, _, _, _, _, hd, _ => by rw [show gs = .nil from hd]; rfl
  | .cons k v t, gs, key, parts, i, hw, hd, hm => by
    have hw' : memKeyF t k = false ∧ wfV v = true ∧ wfF t = true := by
      simpa [wfF, Bool.and_eq_true, Bool.not_eq_true', and_assoc] using hw
    rw [noMatchAtKey] at hm
    rcases hd with hd' | hmatch
    · by_cases hkk : k = key
      · have habs : noMatchAtKey t key parts i = true :=
          nmatch_atkey_absent t key parts i (hkk ▸ hw'.1)
        exact nmatch_mono_atkey t gs key parts i hw'.2.2 hd' habs
      · rw [if_neg hkk] at hm
        exact nmatch_mono_atkey t gs key parts i hw'.2.2 hd' hm
    · cases gs with
      | nil => rfl
      | cons k2 w t' =>
        obtain ⟨hk2, hdw, ht'⟩ := hmatch
        subst hk2
        rw [noMatchAtKey]
        by_cases hkk : k2 = key
        · rw [if_pos hkk]
          rw [if_pos hkk] at hm
          exact nmatch_mono_v v w parts i hw'.2.1 hdw hm
        · rw [if_neg hkk]
          rw [if_neg hkk] at hm
          exact nmatch_mono_atkey t t' key parts i hw'.2.2 ht' hm
end

/-! Top-level composition: `redact` as a fold of (path, rule) operations. -/

theorem redact_eq_applyOps (rules : List RedactionRule) (v : Value) :
    redact rules v = applyOps (opList rules) (structuredClone v) := by
  rw [redact, applyOps, opList, List.foldl_flatten, List.foldl_map]
  congr 1
  funext acc r
  rw [List.foldl_map]

theorem opList_remove (rules : List RedactionRule)
    (h : ∀ r ∈ rules, r.action = .remove) :
    ∀ pr ∈ opList rules, pr.2.action = .remove := by
  intro pr hpr
  simp only [opList, List.mem_flatten, List.mem_map] at hpr
  obtain ⟨l, ⟨r, hr, rfl⟩, hprl⟩ := hpr
  obtain ⟨p, _, rfl⟩ := List.mem_map.mp hprl
  exact h r hr

theorem applyOps_preserves_noMatch : ∀ (ops : List (String × RedactionRule)) (v : Value)
    (parts : List String) (i : Nat), (∀ pr ∈ ops, pr.2.action = .remove) →
    wfV v = true → noMatchV v parts i = true → noMatchV (applyOps ops v) parts i = true
  | [], v, _, _, _, _, hm => hm
  | pr :: rest, v, parts, i, hall, hw, hm => by
    rw [applyOps, List.foldl_cons]
    have ha : pr.2.action = .remove := hall pr (by simp)
    have hd : delV v (applyRedaction v pr.1 pr.2) :=
      trav_del_v v (parsePath pr.1) 0 pr.2 ha
    exact applyOps_preserves_noMatch rest _ parts i
      (fun q hq => hall q (by simp [hq]))
      (wf_del_v _ _ hd hw) (nmatch_mono_v v _ parts i hw hd hm)

theorem applyOps_wf : ∀ (ops : List (String × RedactionRule)) (v : Value),
    (∀ pr ∈ ops, pr.2.action = .remove) → wfV v = true → wfV (applyOps ops v) = true
  | [], v, _, hw => hw
  | pr :: rest, v, hall, hw => by
    rw [applyOps, List.foldl_cons]
    have ha : pr.2.action = .remove := hall pr (by simp)
    have hd : delV v (applyRedaction v pr.1 pr.2) :=
      trav_del_v v (parsePath pr.1) 0 pr.2 ha
    exact applyOps_wf rest _ (fun q hq => hall q (by simp [hq])) (wf_del_v _ _ hd hw)

theorem applyOps_clean_all : ∀ (ops : List (String × RedactionRule)) (v : Value),
    (∀ pr ∈ ops, pr.2.action = .remove) → wfV v = true →
    ∀ pr ∈ ops, noMatchV (applyOps ops v) (parsePath pr.1) 0 = true
  | [], _, _, _, pr, hpr => by simp at hpr
  | pr0 :: rest, v, hall, hw, pr, hpr => by
    rw [applyOps, List.foldl_cons]
    have ha0 : pr0.2.action = .remove := hall pr0 (by simp)
    have hd : delV v (applyRedaction v pr0.1 pr0.2) :=
      trav_del_v v (parsePath pr0.1) 0 pr0.2 ha0
    have hw' : wfV (applyRedaction v pr0.1 pr0.2) = true := wf_del_v _ _ hd hw
    rcases List.mem_cons.mp hpr with he | hrest
    · subst he
      have hafter : noMatchV (applyRedaction v pr.1 pr.2) (parsePath pr.1) 0 = true :=
        nmatch_after_v v (parsePath pr.1) 0 pr.2 ha0
      exact applyOps_preserves_noMatch rest _ (parsePath pr.1) 0
        (fun q hq => hall q (by simp [hq])) hw' hafter
    · exact applyOps_clean_all rest _ (fun q hq => hall q (by simp [hq])) hw' pr hrest

theorem applyOps_noop : ∀ (ops : List (String × RedactionRule)) (w : Value),
    (∀ pr ∈ ops, noMatchV w (parsePath pr.1) 0 = true) → applyOps ops w = w
  | [], _, _ => rfl
  | pr :: rest, w, h => by
    rw [applyOps, List.foldl_cons]
    have h0 : applyRedaction w pr.1 pr.2 = w :=
      nmatch_sound_v w (parsePath pr.1) 0 pr.2 (h pr (by simp))
    rw [h0]
    exact applyOps_noop rest w (fun q hq => h q (by simp [hq]))

/-- C7: for every well-formed record R (mappings with pairwise-distinct
keys, as every JavaScript object) and every rule set consisting of `remove`
rules, `redact` is idempotent: applying the rule set twice yields the same
result as applying it once. -/
theorem redact_remove_idempotent (rules : List RedactionRule) (R : Value)
    (hre : ∀ r ∈ rules, r.action = .remove) (hw : wfV R = true) :
    redact rules (redact rules R) = redact rules R := by
  have hall := opList_remove rules hre
  rw [redact_eq_applyOps rules (redact rules R), structuredClone_id,
    redact_eq_applyOps rules R, structuredClone_id]
  exact applyOps_noop _ _ (applyOps_clean_all (opList rules) R hall hw)

/-- Witness for C7: removing `attributes.password` twice equals removing it
once on a concrete record. -/
theorem redact_remove_idempotent_witness :
    redact [⟨["attributes.password"], .remove, none⟩]
        (redact [⟨["attributes.password"], .remove, none⟩]
          (.obj (.cons "attributes"
            (.obj (.cons "password" (.str "p") (.cons "u" (.str "x") .nil))) .nil))) =
      redact [⟨["attributes.password"], .remove, none⟩]
        (.obj (.cons "attributes"
          (.obj (.cons "password" (.str "p") (.cons "u" (.str "x") .nil))) .nil)) :=
  redact_remove_idempotent _ _ (by decide) (by decide)
